import Mathlib

/-!
Shallow embedding of the ReconRaptor vendor-reconciliation core
(`recon_raptor_fincomms.py`, plus the uploaded Streamlit variant
`server/uploads/1768655241286-973860099-recon_raptor.py`), together with
theorems settling the specification claims about it.

Numbers are modelled as exact rationals, strings as Lean `String`
(lists of characters); Python's `round(x, 2)` is modelled as
round-half-to-even on rationals.
-/

/-! ### Generic character and list helpers -/

/-- Python `str.strip()`: drop leading and trailing whitespace. -/
def pyStrip (l : List Char) : List Char :=
  ((l.dropWhile Char.isWhitespace).reverse.dropWhile Char.isWhitespace).reverse

/-- ASCII lower-casing of one character (model of Python `str.lower`). -/
def lowChar (c : Char) : Char :=
  if 'A' ≤ c ∧ c ≤ 'Z' then Char.ofNat (c.toNat + 32) else c

/-- ASCII upper-casing of one character (model of Python `str.upper`). -/
def upChar (c : Char) : Char :=
  if 'a' ≤ c ∧ c ≤ 'z' then Char.ofNat (c.toNat - 32) else c

/-- Python substring test `a in b` on character lists. -/
def infixB (a b : List Char) : Bool :=
  match b with
  | [] => a.isEmpty
  | _ :: t => a.isPrefixOf b || infixB a t

/-- Remove the first `n` occurrences of character `c`
(Python `s.replace(c, "", n)`). -/
def removeFirstN (c : Char) : Nat → List Char → List Char
  | 0, l => l
  | _ + 1, [] => []
  | n + 1, x :: xs => if x = c then removeFirstN c n xs else x :: removeFirstN c (n + 1) xs

/-- Numeric value of a digit string (most significant first). -/
def digitsVal (l : List Char) : ℚ :=
  l.foldl (fun a c => 10 * a + (c.toNat - '0'.toNat : ℕ)) 0

/-! ### `normalize_number` -/

/-- Characters kept by `re.sub(r"[^\d,.\-]", "", s)`. -/
def numKeep (c : Char) : Bool :=
  c.isDigit || c = ',' || c = '.' || c = '-'

/-- Model of Python `float(s)` on the residue alphabet (digits, `,`, `.`,
`-`): optional leading minus, then digits with at most one decimal point
and at least one digit in total; anything else fails. -/
def parseFloat (l : List Char) : Option ℚ :=
  let (neg, r) := match l with
    | '-' :: t => (true, t)
    | _ => (false, l)
  let intPart := r.takeWhile Char.isDigit
  let rest := r.dropWhile Char.isDigit
  let val? : Option ℚ :=
    match rest with
    | [] => if intPart = [] then none else some (digitsVal intPart)
    | '.' :: r2 =>
      let fracPart := r2.takeWhile Char.isDigit
      if r2.dropWhile Char.isDigit = [] ∧ ¬(intPart = [] ∧ fracPart = []) then
        some (digitsVal intPart + digitsVal fracPart / (10 : ℚ) ^ fracPart.length)
      else none
    | _ => none
  val?.map (fun q => if neg then -q else q)

/-- The comma/period disambiguation block of `normalize_number`. -/
def sepFix (s : List Char) : List Char :=
  if s.count ',' = 1 ∧ s.count '.' = 1 then
    if s.findIdx (· = '.') < s.findIdx (· = ',') then
      -- comma comes later: periods are thousands separators, comma is decimal
      (s.filter (· ≠ '.')).map (fun c => if c = ',' then '.' else c)
    else
      s.filter (· ≠ ',')
  else if s.count ',' = 1 then
    s.map (fun c => if c = ',' then '.' else c)
  else if 1 < s.count '.' then
    removeFirstN '.' (s.count '.' - 1) s
  else s

/-- `normalize_number` from `recon_raptor_fincomms.py` (identical in the
uploaded variant): strip to the number alphabet, disambiguate European
vs US separators, parse; any failure yields `0`. -/
def normalizeNumber (v : String) : ℚ :=
  if pyStrip v.data = [] then 0
  else
    match parseFloat (sepFix ((pyStrip v.data).filter numKeep)) with
    | some q => q
    | none => 0

/-! ### 2-decimal rounding (Python `round(x, 2)`) -/

/-- Round-half-to-even on rationals (Python's `round` tie rule). -/
def roundHE (q : ℚ) : ℤ :=
  let n := ⌊q⌋
  let f := q - n
  if f < 1/2 then n
  else if 1/2 < f then n + 1
  else if Even n then n else n + 1

/-- Python `round(x, 2)` on rationals. -/
def round2 (q : ℚ) : ℚ := (roundHE (q * 100) : ℚ) / 100

/-! ### `clean_invoice_number` (fincomms variant) -/

/-- Separator class `[\s\-_./]` used after stripped tokens. -/
def sepChar (c : Char) : Bool :=
  c.isWhitespace || c = '-' || c = '_' || c = '.' || c = '/'

/-- Case-insensitive character equality (ASCII). -/
def charIEq (a b : Char) : Bool := upChar a = upChar b

/-- Case-insensitive "starts with" test. -/
def startsWithI : List Char → List Char → Bool
  | [], _ => true
  | _ :: _, [] => false
  | a :: as, b :: bs => charIEq a b && startsWithI as bs

/-- The fixed prefix vocabulary of `clean_invoice_number`, in the order the
regex alternation tries it. -/
def tokList : List (List Char) :=
  ["INV".data, "INVOICE".data, "FACT".data, "FACTURA".data, "TIM".data, "CN".data,
   "CREDIT".data, "NOTE".data, "REF".data, "DOC".data, "NUM".data, "NO".data,
   "NR".data, "AR".data, "PA".data, "PF".data, "AB".data, "APO".data, "APD".data,
   "VS".data]

/-- `re.sub(r'^(INV|…|VS)[\s\-_./]*', '', s, IGNORECASE)`: first alternative
that matches at the start is removed together with trailing separators. -/
def dropTokPfx (toks : List (List Char)) (s : List Char) : List Char :=
  match toks with
  | [] => s
  | t :: ts => if startsWithI t s then (s.drop t.length).dropWhile sepChar else dropTokPfx ts s

/-- ASCII letter test (the `[A-Z]` class under `IGNORECASE`). -/
def isAsciiLetter (c : Char) : Bool :=
  ('A' ≤ c && c ≤ 'Z') || ('a' ≤ c && c ≤ 'z')

/-- `re.sub(r'^[A-Z]{1,3}[\s\-_./]*', '', s, IGNORECASE)`: greedily remove up
to three leading letters, then separators. -/
def dropLetterPfx (s : List Char) : List Char :=
  let k := min 3 (s.takeWhile isAsciiLetter).length
  if k = 0 then s else (s.drop k).dropWhile sepChar

/-- Does the list start with a year-like token `20[0-9]{2}`? -/
def isYearAt (l : List Char) : Bool :=
  match l with
  | '2' :: '0' :: c :: d :: _ => c.isDigit && d.isDigit
  | _ => false

/-- `re.sub(r'20[0-9]{2}[\s\-_./]*', '', s)`: remove every year-like token and
the separators following it, scanning left to right (fuelled recursion; the
fuel `l.length` always suffices because each step consumes at least one
character). -/
def yearSubF : Nat → List Char → List Char
  | 0, l => l
  | _ + 1, [] => []
  | fuel + 1, c :: rest =>
    if isYearAt (c :: rest) then yearSubF fuel ((rest.drop 3).dropWhile sepChar)
    else c :: yearSubF fuel rest

def yearSub (l : List Char) : List Char := yearSubF l.length l

/-- The `[A-Z0-9]` class (kept by `re.sub(r'[^A-Z0-9]', '', s)`). -/
def isUpAlnum (c : Char) : Bool :=
  ('A' ≤ c && c ≤ 'Z') || c.isDigit

/-- The transformation chain of `clean_invoice_number` after the initial
guard: upper-case, strip the token prefix, strip a 1–3 letter prefix, strip
year tokens, keep `[A-Z0-9]`, strip leading zeros. -/
def cleanCore (l : List Char) : List Char :=
  ((yearSub (dropLetterPfx (dropTokPfx tokList (l.map upChar)))).filter
      isUpAlnum).dropWhile (· = '0')

/-- `clean_invoice_number` from `recon_raptor_fincomms.py`. -/
def cleanInvoiceNumber (v : String) : String :=
  if v = "" then ""
  else if cleanCore (pyStrip v.data) = [] then "0"
  else ⟨cleanCore (pyStrip v.data)⟩

/-- Does the list contain an occurrence of the year pattern `20[0-9]{2}`?
(Used to state when the year-stripping substitution is the identity.) -/
def hasYear : List Char → Bool
  | [] => false
  | c :: r => isYearAt (c :: r) || hasYear r

/-! ### `clean_invoice_code` (uploaded Streamlit variant) -/

/-- Characters `re.split(r"[-_.\s]", s)` splits on. -/
def splitSep (c : Char) : Bool :=
  c = '-' || c = '_' || c = '.' || c.isWhitespace

/-- `re.split` on single separator characters, keeping empty fields. -/
def splitParts (l : List Char) : List (List Char) :=
  match l with
  | [] => [[]]
  | c :: rest =>
    let ps := splitParts rest
    if splitSep c then [] :: ps
    else
      match ps with
      | p :: ps2 => (c :: p) :: ps2
      | [] => [[c]]

/-- `re.fullmatch(r"\d{1,}", p)`. -/
def allDigits1 (p : List Char) : Bool := ¬p.isEmpty && p.all Char.isDigit

/-- `re.fullmatch(r"20[0-3]\d", p)`. -/
def isYearPart (p : List Char) : Bool :=
  match p with
  | ['2', '0', c, d] => ('0' ≤ c && c ≤ '3') && d.isDigit
  | _ => false

/-- The `for p in reversed(parts)` loop: take the last all-digit,
non-year-like part, with leading zeros stripped; otherwise keep `s`. -/
def pickDigitPart (s : List Char) (parts : List (List Char)) : List Char :=
  match parts with
  | [] => s
  | p :: ps =>
    let r := pickDigitPart s ps
    -- `reversed(parts)` scans from the last part backwards, so later parts win
    if r ≠ s then r
    else if allDigits1 p && ¬isYearPart p then p.dropWhile (· = '0')
    else s

/-- Prefix vocabulary of the uploaded `clean_invoice_code` (regex
alternation order preserved; Greek tokens included verbatim). -/
def tokListU : List (List Char) :=
  ["αρ".data, "τιμ".data, "pf".data, "ab".data, "inv".data, "tim".data, "cn".data,
   "ar".data, "pa".data, "πφ".data, "πα".data, "apo".data, "ref".data, "doc".data,
   "num".data, "no".data, "apd".data, "vs".data]

/-- The `\W` class (non-word characters, ASCII approximation). -/
def nonWordChar (c : Char) : Bool :=
  ¬(c.isAlphanum || c = '_')

/-- `re.sub(r"^(αρ|…|vs)\W*", "", s)`. -/
def dropTokPfxU (toks : List (List Char)) (s : List Char) : List Char :=
  match toks with
  | [] => s
  | t :: ts => if t.isPrefixOf s then (s.drop t.length).dropWhile nonWordChar else dropTokPfxU ts s

/-- Does the list start with `20\d{2}`? -/
def isYearAtU (l : List Char) : Bool :=
  match l with
  | '2' :: '0' :: c :: d :: _ => c.isDigit && d.isDigit
  | _ => false

/-- `re.sub(r"20\d{2}", "", s)` (no separator suffix in this variant). -/
def yearSubUF : Nat → List Char → List Char
  | 0, l => l
  | _ + 1, [] => []
  | fuel + 1, c :: rest =>
    if isYearAtU (c :: rest) then yearSubUF fuel (rest.drop 3)
    else c :: yearSubUF fuel rest

def yearSubU (l : List Char) : List Char := yearSubUF l.length l

/-- The `[a-z0-9]` class. -/
def isLowAlnum (c : Char) : Bool :=
  ('a' ≤ c && c ≤ 'z') || c.isDigit

/-- `clean_invoice_code` from the uploaded Streamlit variant. -/
def cleanInvoiceCode (v : String) : String :=
  if v = "" then ""
  else
    let s := (pyStrip v.data).map lowChar
    let s := pickDigitPart s (splitParts s)
    let s := dropTokPfxU tokListU s
    let s := yearSubU s
    let s := s.filter isLowAlnum
    let s := s.dropWhile (· = '0')
    let s := s.filter Char.isDigit
    if s = [] then "0" else ⟨s⟩

/-! ### `fuzzy_ratio` (difflib `SequenceMatcher.ratio`) -/

/-- Length of the longest common prefix of two character lists. -/
def lcpLen : List Char → List Char → Nat
  | a :: as, b :: bs => if a = b then lcpLen as bs + 1 else 0
  | _, _ => 0

/-- `SequenceMatcher.find_longest_match` (no junk, strings below the autojunk
threshold): the longest block common to `a` and `b`, ties broken by the
smallest start in `a`, then the smallest start in `b`.  Returns
`(i, j, size)`. -/
def flm (a b : List Char) : Nat × Nat × Nat :=
  (List.range a.length).foldl
    (fun best i =>
      (List.range b.length).foldl
        (fun best j =>
          let k := lcpLen (a.drop i) (b.drop j)
          if best.2.2 < k then (i, j, k) else best)
        best)
    (0, 0, 0)

/-- Total size of the matching blocks of `get_matching_blocks`: recursively
split around the longest match (fuelled recursion; fuel `a.length` suffices
since each recursive call strictly shortens the `a`-side segment). -/
def matchTotalF : Nat → List Char → List Char → Nat
  | 0, _, _ => 0
  | fuel + 1, a, b =>
    let (i, j, k) := flm a b
    if k = 0 then 0
    else matchTotalF fuel (a.take i) (b.take j) + k
         + matchTotalF fuel (a.drop (i + k)) (b.drop (j + k))

def matchTotal (a b : List Char) : Nat := matchTotalF a.length a b

/-- `fuzzy_ratio(a, b) = SequenceMatcher(None, a, b).ratio()`:
`2M / T` where `M` is the total matched size and `T` the total length
(`1` when both strings are empty). -/
def fuzzyRatio (x y : String) : ℚ :=
  let a := x.data
  let b := y.data
  let T := a.length + b.length
  if T = 0 then 1 else 2 * (matchTotal a b : ℚ) / T

/-! ### Consolidated entries and the tiered matcher (`recon_raptor_fincomms.py`) -/

/-- One consolidated invoice as the matcher sees it: the raw invoice text
(`invoice_erp` / `invoice_ven` of the base row), the stored normalized code
(`__inv_norm = __inv_clean`), the matching amount `__amt` (absolute net) and
the `Date` / `Entity` columns carried into the missing sets. -/
structure Entry where
  inv : String
  code : String
  amt : ℚ
  date : String
  entity : String
  deriving Repr, DecidableEq

/-- One match record (`matched.append({...})`), extended with the arena
indices of the two consumed entries so that consumption is checkable. -/
structure MatchRec where
  eIdx : ℕ
  vIdx : ℕ
  erpInv : String
  venInv : String
  erpAmt : ℚ
  venAmt : ℚ
  diff : ℚ
  status : String
  fuzzy : Option ℚ
  matchType : String
  date : String
  deriving Repr, DecidableEq

/-- Tier-1 inner loop of `match_invoices`: scan unconsumed vendor entries in
order; stop at the first one whose stored normalized code equals the ERP
entry's (non-empty) code. -/
def tier1Scan (e : Entry) : List (ℕ × Entry) → List ℕ → Option (ℕ × Entry)
  | [], _ => none
  | (vi, v) :: rest, usedV =>
    if vi ∈ usedV then tier1Scan e rest usedV
    else if e.code = v.code ∧ e.code ≠ "" then some (vi, v)
    else tier1Scan e rest usedV

/-- Tier-1 match record: amounts rounded to 2 decimals, status
`"Perfect Match"` iff the absolute amount difference is `< 0.01`.
(The last argument is the unused similarity slot of the shared loop.) -/
def mkT1Rec (ei : ℕ) (e : Entry) (vi : ℕ) (v : Entry) (_s : ℚ) : MatchRec :=
  let eAmt := |e.amt|
  let vAmt := |v.amt|
  let diff := |eAmt - vAmt|
  { eIdx := ei, vIdx := vi, erpInv := e.inv, venInv := v.inv,
    erpAmt := round2 eAmt, venAmt := round2 vAmt, diff := round2 diff,
    status := if diff < 1/100 then "Perfect Match" else "Difference Match",
    fuzzy := none, matchType := "Tier-1", date := "" }

/-- Tier-2 similarity: `1.0` when one cleaned code is a substring of the
other, otherwise the `fuzzy_ratio`. -/
def sim2 (eCode : String) (v : Entry) : ℚ :=
  let vCode := cleanInvoiceNumber v.inv
  if infixB eCode.data vCode.data ∨ infixB vCode.data eCode.data then 1
  else fuzzyRatio eCode vCode

/-- Tier-2 inner loop of `tier2_match`: among unconsumed vendor entries whose
amount is within `1.00`, keep the candidate with the strictly highest
similarity `≥ 0.90` (first one wins on ties). -/
def tier2Best (eAmt : ℚ) (eCode : String) :
    List (ℕ × Entry) → List ℕ → Option (ℕ × Entry × ℚ) → ℚ → Option (ℕ × Entry × ℚ)
  | [], _, best, _ => best
  | (vi, v) :: rest, usedV, best, bestScore =>
    if vi ∈ usedV then tier2Best eAmt eCode rest usedV best bestScore
    else if 1 < |eAmt - abs v.amt| then tier2Best eAmt eCode rest usedV best bestScore
    else
      let sim := sim2 eCode v
      if 9/10 ≤ sim ∧ bestScore < sim then
        tier2Best eAmt eCode rest usedV (some (vi, v, sim)) sim
      else tier2Best eAmt eCode rest usedV best bestScore

def mkT2Rec (ei : ℕ) (e : Entry) (vi : ℕ) (v : Entry) (s : ℚ) : MatchRec :=
  let eAmt := |e.amt|
  let vAmt := |v.amt|
  { eIdx := ei, vIdx := vi, erpInv := e.inv, venInv := v.inv,
    erpAmt := round2 eAmt, venAmt := round2 vAmt, diff := round2 |eAmt - vAmt|,
    status := "", fuzzy := some (round2 s), matchType := "Tier-2", date := "" }

/-- Tier-3 inner loop of `tier3_match`: first unconsumed vendor entry with
the same non-empty date and `fuzzy_ratio ≥ 0.75`. -/
def tier3Scan (eDate : String) (eCode : String) :
    List (ℕ × Entry) → List ℕ → Option (ℕ × Entry × ℚ)
  | [], _ => none
  | (vi, v) :: rest, usedV =>
    if vi ∈ usedV then tier3Scan eDate eCode rest usedV
    else if v.date = "" ∨ eDate ≠ v.date then tier3Scan eDate eCode rest usedV
    else
      let sim := fuzzyRatio eCode (cleanInvoiceNumber v.inv)
      if 3/4 ≤ sim then some (vi, v, sim) else tier3Scan eDate eCode rest usedV

def mkT3Rec (ei : ℕ) (e : Entry) (vi : ℕ) (v : Entry) (s : ℚ) : MatchRec :=
  let eAmt := |e.amt|
  let vAmt := |v.amt|
  { eIdx := ei, vIdx := vi, erpInv := e.inv, venInv := v.inv,
    erpAmt := round2 eAmt, venAmt := round2 vAmt, diff := round2 |eAmt - vAmt|,
    status := "", fuzzy := some (round2 s), matchType := "Tier-3", date := e.date }

/-- The greedy outer loop shared by all three tiers: walk the ERP entries in
order, skip consumed ones, ask `pick` for a partner among the unconsumed
vendor entries, and on success consume both sides and emit a record. -/
def greedyLoop (pick : Entry → List (ℕ × Entry) → List ℕ → Option (ℕ × Entry × ℚ))
    (mk : ℕ → Entry → ℕ → Entry → ℚ → MatchRec) :
    List (ℕ × Entry) → List (ℕ × Entry) → List ℕ → List ℕ →
    List MatchRec × List ℕ × List ℕ
  | [], _, usedE, usedV => ([], usedE, usedV)
  | (ei, e) :: rest, ven, usedE, usedV =>
    if ei ∈ usedE then greedyLoop pick mk rest ven usedE usedV
    else
      match pick e ven usedV with
      | none => greedyLoop pick mk rest ven usedE usedV
      | some (vi, v, s) =>
        let r := greedyLoop pick mk rest ven (ei :: usedE) (vi :: usedV)
        (mk ei e vi v s :: r.1, r.2)

def pick1 (e : Entry) (ven : List (ℕ × Entry)) (usedV : List ℕ) : Option (ℕ × Entry × ℚ) :=
  (tier1Scan e ven usedV).map (fun p => (p.1, p.2, 0))

def pick2 (e : Entry) (ven : List (ℕ × Entry)) (usedV : List ℕ) : Option (ℕ × Entry × ℚ) :=
  tier2Best |e.amt| (cleanInvoiceNumber e.inv) ven usedV none 0

def pick3 (e : Entry) (ven : List (ℕ × Entry)) (usedV : List ℕ) : Option (ℕ × Entry × ℚ) :=
  if e.date = "" then none else tier3Scan e.date (cleanInvoiceNumber e.inv) ven usedV

/-- Run one tier: matches plus the two remaining (missing) sides, the latter
computed exactly as `df[~df.index.isin(used)]`. -/
def runTier (pick : Entry → List (ℕ × Entry) → List ℕ → Option (ℕ × Entry × ℚ))
    (mk : ℕ → Entry → ℕ → Entry → ℚ → MatchRec)
    (erp ven : List (ℕ × Entry)) :
    List MatchRec × List (ℕ × Entry) × List (ℕ × Entry) :=
  let r := greedyLoop pick mk erp ven [] []
  (r.1, erp.filter (fun p => decide (p.1 ∉ r.2.1)), ven.filter (fun p => decide (p.1 ∉ r.2.2)))

def tier1 (erp ven : List (ℕ × Entry)) := runTier pick1 mkT1Rec erp ven

def tier2 (erp ven : List (ℕ × Entry)) := runTier pick2 mkT2Rec erp ven

def tier3 (erp ven : List (ℕ × Entry)) := runTier pick3 mkT3Rec erp ven

/-- A full Tier1→Tier3 run over the two consolidated sides.  Entries are
identified by their position (arena index); each tier consumes entries and
passes the shrunken missing sets on. -/
def reconRun (erp ven : List Entry) :
    List MatchRec × List (ℕ × Entry) × List (ℕ × Entry) :=
  let t1 := tier1 erp.enum ven.enum
  let t2 := tier2 t1.2.1 t1.2.2
  let t3 := tier3 t2.2.1 t2.2.2
  (t1.1 ++ t2.1 ++ t3.1, t3.2.1, t3.2.2)

/-! ### Tables, column normalization, and `consolidate_invoices` -/

/-- A raw ledger row: ordered mapping column name → text value. -/
abbrev RowMap := List (String × String)

/-- Cell access (`row.get(col, default)`; a missing cell reads as `""`,
which normalizes to `0` / the empty code exactly like pandas `NaN`). -/
def getCell (r : RowMap) (c : String) : String :=
  ((r.find? (fun p => decide (p.1 = c))).map Prod.snd).getD ""

/-- A side's table: its column names and its rows. -/
structure Table where
  cols : List String
  rows : List RowMap

/-- `calculate_amount_erp`: AP perspective — credit is the liability
(kept signed), otherwise debit always reduces AP. -/
def calculateAmountErp (r : RowMap) (debitCol creditCol : String) : ℚ :=
  let debit := normalizeNumber (getCell r debitCol)
  let credit := normalizeNumber (getCell r creditCol)
  if credit ≠ 0 then credit
  else if debit ≠ 0 then -|debit|
  else 0

/-- `calculate_amount_vendor`: vendor perspective — debit is what is owed
(kept signed), otherwise the credit column is a credit note. -/
def calculateAmountVendor (r : RowMap) (debitCol creditCol : String) : ℚ :=
  let debit := normalizeNumber (getCell r debitCol)
  let credit := normalizeNumber (getCell r creditCol)
  if debit ≠ 0 then debit
  else if credit ≠ 0 then -|credit|
  else 0

/-- `x and x != "0"`: a usable (non-sentinel) cleaned invoice code. -/
def validCode (c : String) : Bool := ¬(c = "") && ¬(c = "0")

/-- Ordered insertion used to model pandas `groupby`'s sorted distinct keys. -/
def insertKey (c : String) : List String → List String
  | [] => [c]
  | k :: ks =>
    if c = k then k :: ks
    else if c < k then c :: k :: ks
    else k :: insertKey c ks

/-- Sorted distinct group keys (pandas `groupby` iterates keys in sorted
order). -/
def sortedKeys (l : List String) : List String :=
  l.foldl (fun acc c => insertKey c acc) []

/-- One consolidated invoice produced by `consolidate_invoices`: the base
(first) row's fields plus the group's net amount and size. -/
structure CEntry where
  inv : String
  code : String
  net : ℚ
  count : ℕ
  date : String
  entity : String
  deriving Repr, DecidableEq

/-- The per-row cleaned invoice code (`df["__inv_clean"]`). -/
def invClean (tag : String) (r : RowMap) : String :=
  cleanInvoiceNumber (getCell r ("invoice_" ++ tag))

/-- The rows of a side with a usable invoice code
(`invoice_rows = df[has_invoice]`). -/
def invoiceRows (t : Table) (tag : String) : List RowMap :=
  t.rows.filter (fun r => validCode (invClean tag r))

/-- One group of the `groupby("__inv_clean")` loop body of
`consolidate_invoices`: skip sentinel keys, net the group's amounts, round,
drop groups with `|net| < 0.01`, and base the entry on the group's first
row. -/
def consGroup (t : Table) (tag : String) (amountFunc : RowMap → String → String → ℚ)
    (c : String) : Option CEntry :=
  if c = "" ∨ c = "0" then none
  else
    let g := (invoiceRows t tag).filter (fun r => decide (invClean tag r = c))
    let net := round2 ((g.map (fun r => amountFunc r ("debit_" ++ tag) ("credit_" ++ tag))).sum)
    if |net| < 1/100 then none
    else
      g.head?.map (fun base =>
        { inv := getCell base ("invoice_" ++ tag), code := c, net := net, count := g.length,
          date := getCell base ("date_" ++ tag),
          entity := getCell base ("entity_" ++ tag) })

/-- `consolidate_invoices` from `recon_raptor_fincomms.py`: rows without a
usable cleaned code become payment rows; the rest are grouped by cleaned
code, netted, rounded to 2 decimals, and dropped when `|net| < 0.01`. -/
def consolidateInvoices (t : Table) (tag : String)
    (amountFunc : RowMap → String → String → ℚ) : List CEntry × List RowMap :=
  if ("invoice_" ++ tag) ∈ t.cols then
    ((sortedKeys ((invoiceRows t tag).map (invClean tag))).filterMap
        (consGroup t tag amountFunc),
      t.rows.filter (fun r => !validCode (invClean tag r)))
  else ([], [])

/-- `str(c).strip().lower()` of a column header. -/
def colKey (c : String) : List Char := (pyStrip c.data).map lowChar

/-- The invoice alias list of `normalize_columns`. -/
def invoiceAliases : List String :=
  ["invoice", "invoice number", "inv no", "inv", "factura", "fact",
   "numero", "document", "doc", "ref", "reference",
   "alternative document", "alt document", "alt. document",
   "voucher", "bill", "receipt"]

/-- The alias table of `normalize_columns`, in source order. -/
def mappingList : List (String × List String) :=
  [("invoice", invoiceAliases),
   ("debit", ["debit", "debe", "cargo", "dr", "charge"]),
   ("credit", ["credit", "haber", "abono", "cr", "payment"]),
   ("amount", ["amount", "importe", "valor", "total", "value", "sum", "net"]),
   ("date", ["date", "fecha", "data", "issue date", "posting date", "doc date", "document date"]),
   ("entity", ["entity", "company", "business unit", "bu", "cost center", "cc",
               "department", "dept", "organization", "org"])]

/-- `any(a in low for a in aliases)`. -/
def aliasHit (aliases : List String) (c : String) : Bool :=
  aliases.any (fun a => infixB a.data (colKey c))

/-- `v.split('_')[0]` of a canonical column name. -/
def keyOfName (n : String) : String := ⟨n.data.takeWhile (· ≠ '_')⟩

/-- Python-dict style assignment `m[k] = v`. -/
def assocSet (m : List (String × String)) (k v : String) : List (String × String) :=
  if m.any (fun p => decide (p.1 = k)) then
    m.map (fun p => if p.1 = k then (k, v) else p)
  else m ++ [(k, v)]

/-- One pass of the `for key, aliases in mapping.items()` loop: the first
column hitting an alias is renamed to `key_tag`, unless some column already
maps to this key. -/
def processKey (cols : List String) (tag : String) (m : List (String × String))
    (key : String) (aliases : List String) : List (String × String) :=
  match cols.find? (fun c => aliasHit aliases c) with
  | none => m
  | some c =>
    if (m.map (fun p => keyOfName p.2)).contains key then m
    else assocSet m c (key ++ "_" ++ tag)

def buildRenameMap (cols : List String) (tag : String) : List (String × String) :=
  mappingList.foldl (fun m kv => processKey cols tag m kv.1 kv.2) []

def renameCol (m : List (String × String)) (c : String) : String :=
  ((m.find? (fun p => decide (p.1 = c))).map Prod.snd).getD c

/-- The `for req in ["debit", "credit"]` guarantee of `normalize_columns`:
add the column when it is missing. -/
def ensureCol (c : String) (out : List String) : List String :=
  if c ∈ out then out else out ++ [c]

/-- The column names produced by `normalize_columns`: alias-driven renaming
plus the guaranteed `debit_{tag}` / `credit_{tag}` columns. -/
def normalizeColumnNames (cols : List String) (tag : String) : List String :=
  ensureCol ("credit_" ++ tag)
    (ensureCol ("debit_" ++ tag) (cols.map (renameCol (buildRenameMap cols tag))))

/-! ### Consolidation in the uploaded Streamlit variant -/

/-- Document type assigned by the classifier of the uploaded variant
(payments and unknowns are filtered out before consolidation). -/
inductive UType where
  | INV
  | CN
  deriving Repr, DecidableEq

/-- A classified row entering the uploaded variant's `consolidate`. -/
structure URow where
  invoice : String
  debit : String
  credit : String
  type : UType
  date : String
  deriving Repr, DecidableEq

/-- Per-line signed contribution: raw `debit − credit`, forced `≤ 0` for
credit notes and `≥ 0` for invoices. -/
def signedVal (r : URow) : ℚ :=
  let d := normalizeNumber r.debit
  let c := normalizeNumber r.credit
  let raw := d - c
  if r.type = UType.CN then -|raw| else |raw|

/-- A consolidated invoice of the uploaded variant: the base row (an
invoice-typed row when one exists, else the group's first row), the group's
rounded net amount `net_val`, and the absolute amount `__amt` used for
matching. -/
structure UEntry where
  invoice : String
  code : String
  net : ℚ
  amt : ℚ
  deriving Repr, DecidableEq

/-- One group of the uploaded variant's `consolidate` loop: skip sentinel
keys, net the group under the sign rule, round, skip exactly-zero nets, and
base the entry on an invoice-typed row when one exists (else the first
row). -/
def consGroupU (rows : List URow) (c : String) : Option UEntry :=
  if c = "" ∨ c = "0" then none
  else
    let g := rows.filter (fun r => decide (cleanInvoiceCode r.invoice = c))
    let net := round2 ((g.map signedVal).sum)
    if |net| = 0 then none
    else
      let base : Option URow :=
        match g.filter (fun r => decide (r.type = UType.INV)) with
        | b :: _ => some b
        | [] => g.head?
      base.map (fun b => { invoice := b.invoice, code := c, net := net, amt := |net| })

/-- `consolidate` from the uploaded variant's `match_invoices`: group by
cleaned code, net with the sign rule, round, skip zero nets. -/
def consolidateU (rows : List URow) : List UEntry :=
  (sortedKeys (rows.map (fun r => cleanInvoiceCode r.invoice))).filterMap (consGroupU rows)

/-! ### `match_payments` -/

/-- A leftover payment line: its consolidation amount `__amount` and date. -/
structure PayLine where
  amt : ℚ
  date : String
  deriving Repr, DecidableEq

/-- One matched-payment record, extended with the arena indices of the two
paired lines. -/
structure PayRec where
  eIdx : ℕ
  vIdx : ℕ
  erpAmt : ℚ
  venAmt : ℚ
  erpDate : String
  venDate : String
  diff : ℚ
  deriving Repr, DecidableEq

/-- Inner loop of `match_payments`: first unconsumed vendor line whose
absolute amount is within `0.05`. -/
def payScan (eAmt : ℚ) : List (ℕ × PayLine) → List ℕ → Option (ℕ × PayLine)
  | [], _ => none
  | (vi, v) :: rest, usedV =>
    if vi ∈ usedV then payScan eAmt rest usedV
    else if |eAmt - abs v.amt| ≤ 1/20 then some (vi, v)
    else payScan eAmt rest usedV

def mkPayRec (ei : ℕ) (e : PayLine) (vi : ℕ) (v : PayLine) : PayRec :=
  let eAmt := |e.amt|
  let vAmt := |v.amt|
  { eIdx := ei, vIdx := vi, erpAmt := round2 eAmt, venAmt := round2 vAmt,
    erpDate := e.date, venDate := v.date, diff := round2 |eAmt - vAmt| }

/-- Outer loop of `match_payments`: every ERP line scans once; matched
vendor lines are consumed. -/
def matchPaymentsLoop : List (ℕ × PayLine) → List (ℕ × PayLine) → List ℕ →
    List PayRec × List ℕ
  | [], _, usedV => ([], usedV)
  | (ei, e) :: rest, ven, usedV =>
    match payScan |e.amt| ven usedV with
    | none => matchPaymentsLoop rest ven usedV
    | some (vi, v) =>
      let r := matchPaymentsLoop rest ven (vi :: usedV)
      (mkPayRec ei e vi v :: r.1, r.2)

/-- `match_payments` from `recon_raptor_fincomms.py`. -/
def matchPayments (erp ven : List PayLine) : List PayRec :=
  (matchPaymentsLoop erp.enum ven.enum []).1

/-! ## Theorems -/

/-! ### C7 — `normalize_number` separator disambiguation -/

/-- C7 counterexample: the claim says that when more than one period appears
*all* periods are treated as thousands separators, which would give
`normalize_number("1.234.567") = 1234567`; the code keeps the *last*
period as a decimal point and yields `1234.567`. -/
theorem c7_counterexample :
    normalizeNumber "1.234.567" = 1234567/1000 ∧
    ¬ normalizeNumber "1.234.567" = (1234567 : ℚ) := by
  have h : normalizeNumber "1.234.567" = 1234567/1000 := by
    simp [normalizeNumber, pyStrip, sepFix, parseFloat, digitsVal, removeFirstN, numKeep]
    norm_num
  exact ⟨h, by rw [h]; norm_num⟩


/-! ### C10 — `clean_invoice_code` digit normalization -/

/-- C10 counterexample: `clean_invoice_code("")` returns `""`, which is
neither the sentinel `"0"` nor a non-empty digit string; and raw codes
differing only in letters need not normalize to the same key:
`"ab007" ↦ "7"` (the `ab` prefix is stripped before leading zeros) while
`"xy007" ↦ "007"`. -/
theorem c10_counterexample :
    ¬(cleanInvoiceCode "" = "0" ∨
        (cleanInvoiceCode "" ≠ "" ∧ ∀ c ∈ (cleanInvoiceCode "").data, c.isDigit)) ∧
    cleanInvoiceCode "ab007" ≠ cleanInvoiceCode "xy007" := by
  constructor <;> decide

/-- C10 (amended): for every *non-empty* input, `clean_invoice_code` returns
either the sentinel `"0"` or a non-empty string of decimal digits — its final
substitution removes every non-digit character, so letters never survive; in
particular `"42-A"` and `"42-B"` both normalize to `"42"`.  (Full
letter-insensitivity does not hold, and the empty input returns `""`.) -/
theorem c10_digits_or_sentinel :
    (∀ v : String, v ≠ "" →
      cleanInvoiceCode v = "0" ∨
        (cleanInvoiceCode v ≠ "" ∧ ∀ c ∈ (cleanInvoiceCode v).data, c.isDigit)) ∧
    cleanInvoiceCode "42-A" = "42" ∧ cleanInvoiceCode "42-B" = "42" := by
  have key : ∀ l : List Char,
      (if l.filter Char.isDigit = [] then ("0" : String) else ⟨l.filter Char.isDigit⟩) = "0" ∨
      ((if l.filter Char.isDigit = [] then ("0" : String) else ⟨l.filter Char.isDigit⟩) ≠ "" ∧
        ∀ c ∈ (if l.filter Char.isDigit = [] then ("0" : String)
                else ⟨l.filter Char.isDigit⟩).data, c.isDigit) := by
    intro l
    by_cases h : l.filter Char.isDigit = []
    · left
      rw [if_pos h]
    · right
      rw [if_neg h]
      refine ⟨fun he => h ?_, fun c hc => List.of_mem_filter hc⟩
      simpa using congrArg String.data he
  refine ⟨fun v hv => ?_, by decide, by decide⟩
  unfold cleanInvoiceCode
  rw [if_neg hv]
  exact key _

/-- C10 witness: the digit-or-sentinel clause applied at the concrete input
`"42-A"`. -/
theorem c10_witness :
    ("42-A" : String) ≠ "" ∧
    (cleanInvoiceCode "42-A" = "0" ∨
      (cleanInvoiceCode "42-A" ≠ "" ∧ ∀ c ∈ (cleanInvoiceCode "42-A").data, c.isDigit)) :=
  ⟨by decide, c10_digits_or_sentinel.1 "42-A" (by decide)⟩

/-! ### C6 — idempotence of invoice-code normalization -/

theorem dropWhile_all_false {p : Char → Bool} :
    ∀ {l : List Char}, (∀ c ∈ l, p c = false) → l.dropWhile p = l
  | [], _ => rfl
  | c :: r, h => by
    rw [List.dropWhile_cons, h c (List.mem_cons_self c r)]
    simp

theorem pyStrip_of_no_ws {l : List Char} (h : ∀ c ∈ l, c.isWhitespace = false) :
    pyStrip l = l := by
  unfold pyStrip
  rw [dropWhile_all_false h, dropWhile_all_false (fun c hc => h c (List.mem_reverse.mp hc)),
    List.reverse_reverse]

theorem upAlnum_not_ws {c : Char} (h : isUpAlnum c = true) : c.isWhitespace = false := by
  by_contra hw
  rw [Bool.not_eq_false] at hw
  have h4 : ((c = ' ' ∨ c = '\t') ∨ c = '\x0d') ∨ c = '\n' := by
    simpa [Char.isWhitespace] using hw
  rcases h4 with ((h1 | h1) | h1) | h1 <;> subst h1 <;> exact absurd h (by decide)

theorem upAlnum_cases {c : Char} (h : isUpAlnum c = true) :
    ('A' ≤ c ∧ c ≤ 'Z') ∨ ('0' ≤ c ∧ c ≤ '9') := by
  simpa [isUpAlnum, Char.isDigit] using h

theorem upAlnum_upChar {c : Char} (h : isUpAlnum c = true) : upChar c = c := by
  unfold upChar
  rw [if_neg]
  rintro ⟨h1, _⟩
  rcases upAlnum_cases h with ⟨_, hz⟩ | ⟨_, hz⟩
  · exact absurd (le_trans h1 hz) (by decide)
  · exact absurd (le_trans h1 hz) (by decide)

theorem digit_bounds {c : Char} (h : c.isDigit = true) : '0' ≤ c ∧ c ≤ '9' := by
  simpa [Char.isDigit] using h

theorem digit_not_letter {c : Char} (h : c.isDigit = true) : isAsciiLetter c = false := by
  by_contra hl
  rw [Bool.not_eq_false] at hl
  have h2 : ('A' ≤ c ∧ c ≤ 'Z') ∨ ('a' ≤ c ∧ c ≤ 'z') := by
    simpa [isAsciiLetter] using hl
  rcases h2 with ⟨h1, _⟩ | ⟨h1, _⟩ <;>
    exact absurd (le_trans h1 (digit_bounds h).2) (by decide)

theorem digit_upChar {c : Char} (h : c.isDigit = true) : upChar c = c := by
  unfold upChar
  rw [if_neg]
  rintro ⟨h1, _⟩
  exact absurd (le_trans h1 (digit_bounds h).2) (by decide)

theorem tokHeads :
    ∀ t ∈ tokList, (!t.isEmpty && t.head?.all (fun a => !a.isDigit && (upChar a == a))) = true := by
  decide

theorem startsWithI_digit {a hd : Char} {as rest : List Char}
    (ha : a.isDigit = false) (hua : upChar a = a)
    (h : hd.isDigit = true) (hu : upChar hd = hd) :
    startsWithI (a :: as) (hd :: rest) = false := by
  have hne : a ≠ hd := by
    intro he
    rw [he, h] at ha
    exact absurd ha (by decide)
  unfold startsWithI charIEq
  rw [hua, hu]
  simp [hne]

theorem dropTokPfx_digit {toks : List (List Char)}
    (ht : ∀ t ∈ toks, (!t.isEmpty && t.head?.all (fun a => !a.isDigit && (upChar a == a))) = true)
    {hd : Char} {rest : List Char} (h : hd.isDigit = true) (hu : upChar hd = hd) :
    dropTokPfx toks (hd :: rest) = hd :: rest := by
  induction toks with
  | nil => rfl
  | cons t ts ih =>
    have ht0 := ht t (List.mem_cons_self t ts)
    cases t with
    | nil => simp at ht0
    | cons a as =>
      have ha2 : a.isDigit = false ∧ upChar a = a := by
        simpa using ht0
      unfold dropTokPfx
      rw [startsWithI_digit ha2.1 ha2.2 h hu]
      simpa using ih (fun t' ht' => ht t' (List.mem_cons_of_mem _ ht'))

theorem dropLetterPfx_digit {hd : Char} {rest : List Char} (h : hd.isDigit = true) :
    dropLetterPfx (hd :: rest) = hd :: rest := by
  unfold dropLetterPfx
  rw [List.takeWhile_cons, digit_not_letter h]
  simp

theorem yearSubF_no_year :
    ∀ (l : List Char) (fuel : Nat), hasYear l = false → l.length ≤ fuel →
      yearSubF fuel l = l := by
  intro l
  induction l with
  | nil => intro fuel _ _; cases fuel <;> rfl
  | cons c r ih =>
    intro fuel h hlen
    cases fuel with
    | zero => simp at hlen
    | succ f =>
      have h2 : isYearAt (c :: r) = false ∧ hasYear r = false := by
        simpa [hasYear] using h
      unfold yearSubF
      rw [h2.1]
      simp only [Bool.false_eq_true, if_false]
      rw [ih f h2.2 (Nat.le_of_succ_le_succ hlen)]

theorem yearSub_no_year {l : List Char} (h : hasYear l = false) : yearSub l = l :=
  yearSubF_no_year l l.length h le_rfl

theorem map_id_of_mem {f : Char → Char} :
    ∀ {l : List Char}, (∀ c ∈ l, f c = c) → l.map f = l
  | [], _ => rfl
  | c :: r, h => by
    rw [List.map_cons, h c (List.mem_cons_self c r),
      map_id_of_mem (fun c hc => h c (List.mem_cons_of_mem _ hc))]

theorem head?_dropWhile {p : Char → Bool} :
    ∀ {l : List Char} {hd : Char}, (l.dropWhile p).head? = some hd → p hd = false := by
  intro l
  induction l with
  | nil => intro hd h; simp at h
  | cons c r ih =>
    intro hd h
    rw [List.dropWhile_cons] at h
    by_cases hc : p c = true
    · rw [hc] at h
      simp only [if_true] at h
      exact ih h
    · rw [Bool.not_eq_true] at hc
      rw [hc] at h
      simp only [Bool.false_eq_true, if_false, List.head?_cons, Option.some.injEq] at h
      rw [← h]
      exact hc

/-- Every character of a cleaned invoice number is in `[A-Z0-9]`. -/
theorem cleanInvoiceNumber_chars (v : String) :
    ∀ c ∈ (cleanInvoiceNumber v).data, isUpAlnum c = true := by
  intro c hc
  unfold cleanInvoiceNumber at hc
  by_cases hv : v = ""
  · rw [if_pos hv] at hc
    simp at hc
  · rw [if_neg hv] at hc
    by_cases h0 : cleanCore (pyStrip v.data) = []
    · rw [if_pos h0] at hc
      have : c = '0' := by simpa using hc
      subst this
      decide
    · rw [if_neg h0] at hc
      have hc2 : c ∈ cleanCore (pyStrip v.data) := hc
      unfold cleanCore at hc2
      exact List.of_mem_filter ((List.dropWhile_sublist _).subset hc2)

/-- The head of a cleaned invoice number other than the sentinel is never
`'0'` (leading zeros are stripped). -/
theorem cleanInvoiceNumber_head {v : String} {hd : Char}
    (h : (cleanInvoiceNumber v).data.head? = some hd)
    (hne : cleanInvoiceNumber v ≠ "0") : hd ≠ '0' := by
  unfold cleanInvoiceNumber at h hne
  by_cases hv : v = ""
  · rw [if_pos hv] at h
    simp at h
  · rw [if_neg hv] at h hne
    by_cases h0 : cleanCore (pyStrip v.data) = []
    · rw [if_pos h0] at hne
      exact absurd rfl hne
    · rw [if_neg h0] at h
      have h2 : ((((yearSub (dropLetterPfx (dropTokPfx tokList
          ((pyStrip v.data).map upChar)))).filter isUpAlnum).dropWhile
            (· = '0')).head? = some hd) := h
      have h3 := head?_dropWhile h2
      simpa using h3

/-- C6 counterexample: `clean_invoice_number` is not idempotent — cleaning
`"AAAA1"` yields `"A1"` (the 1–3 letter prefix strip removes only three
letters), and cleaning `"A1"` again strips the surviving letter, yielding
`"1"`. -/
theorem c6_counterexample :
    cleanInvoiceNumber (cleanInvoiceNumber "AAAA1") ≠ cleanInvoiceNumber "AAAA1" := by
  decide

/-- C6 (amended): `clean_invoice_number` is *not* idempotent on all inputs;
it is idempotent on every input whose cleaned form is the sentinel `"0"` or
begins with a decimal digit and contains no year-like `20dd` token (a second
application can only act through the letter-prefix strip or the year strip). -/
theorem c6_idempotent_on_stable :
    ∀ x : String,
      (cleanInvoiceNumber x = "0" ∨
        (∃ d, (cleanInvoiceNumber x).data.head? = some d ∧ d.isDigit = true ∧
          hasYear (cleanInvoiceNumber x).data = false)) →
      cleanInvoiceNumber (cleanInvoiceNumber x) = cleanInvoiceNumber x := by
  intro x h
  rcases h with h0 | ⟨d, hhead, hdig, hyear⟩
  · rw [h0]
    decide
  · by_cases ht0 : cleanInvoiceNumber x = "0"
    · rw [ht0]
      decide
    · set t := cleanInvoiceNumber x with htdef
      obtain ⟨rest, hdata⟩ : ∃ rest, t.data = d :: rest := by
        cases hl : t.data with
        | nil => rw [hl] at hhead; simp at hhead
        | cons a r =>
          rw [hl] at hhead
          simp only [List.head?_cons, Option.some.injEq] at hhead
          subst hhead
          exact ⟨r, rfl⟩
      have hne : t ≠ "" := by
        intro he
        rw [he] at hdata
        simp at hdata
      have hchars : ∀ c ∈ t.data, isUpAlnum c = true := cleanInvoiceNumber_chars x
      have hd0 : d ≠ '0' := cleanInvoiceNumber_head hhead ht0
      have h1 : pyStrip t.data = t.data :=
        pyStrip_of_no_ws (fun c hc => upAlnum_not_ws (hchars c hc))
      have h2 : t.data.map upChar = t.data :=
        map_id_of_mem (fun c hc => upAlnum_upChar (hchars c hc))
      have h3 : dropTokPfx tokList t.data = t.data := by
        rw [hdata]
        exact dropTokPfx_digit tokHeads hdig (digit_upChar hdig)
      have h4 : dropLetterPfx t.data = t.data := by
        rw [hdata]
        exact dropLetterPfx_digit hdig
      have h5 : yearSub t.data = t.data := yearSub_no_year hyear
      have h6 : t.data.filter isUpAlnum = t.data := List.filter_eq_self.mpr hchars
      have h7 : t.data.dropWhile (· = '0') = t.data := by
        rw [hdata, List.dropWhile_cons]
        simp [hd0]
      have hcore : cleanCore (pyStrip t.data) = t.data := by
        unfold cleanCore
        rw [h1, h2, h3, h4, h5, h6, h7]
      show cleanInvoiceNumber t = t
      unfold cleanInvoiceNumber
      rw [if_neg hne, hcore, if_neg (by rw [hdata]; exact List.cons_ne_nil _ _)]

/-- C6 witness: the amended idempotence applied at the concrete input
`"INV-0042"`, whose cleaned form is `"42"`. -/
theorem c6_witness :
    (cleanInvoiceNumber "INV-0042" = "0" ∨
      (∃ d, (cleanInvoiceNumber "INV-0042").data.head? = some d ∧ d.isDigit = true ∧
        hasYear (cleanInvoiceNumber "INV-0042").data = false)) ∧
    cleanInvoiceNumber (cleanInvoiceNumber "INV-0042") = cleanInvoiceNumber "INV-0042" :=
  ⟨Or.inr ⟨'4', by decide, by decide, by decide⟩,
    c6_idempotent_on_stable "INV-0042" (Or.inr ⟨'4', by decide, by decide, by decide⟩)⟩

/-! ### C2 — Tier-1 exact-code matching -/

theorem tier1Scan_first (e : Entry) :
    ∀ (pre : List (ℕ × Entry)) (vi : ℕ) (v : Entry) (post : List (ℕ × Entry)) (usedV : List ℕ),
      (∀ p ∈ pre, p.1 ∈ usedV ∨ ¬(e.code = p.2.code ∧ e.code ≠ "")) →
      vi ∉ usedV → e.code = v.code → e.code ≠ "" →
      tier1Scan e (pre ++ (vi, v) :: post) usedV = some (vi, v) := by
  intro pre
  induction pre with
  | nil =>
    intro vi v post usedV _ hvi h1 h2
    rw [List.nil_append]
    simp only [tier1Scan]
    rw [if_neg hvi, if_pos ⟨h1, h2⟩]
  | cons p rest ih =>
    intro vi v post usedV hpre hvi h1 h2
    obtain ⟨wj, w⟩ := p
    rw [List.cons_append]
    by_cases hw2 : wj ∈ usedV
    · simp only [tier1Scan]
      rw [if_pos hw2]
      exact ih vi v post usedV (fun q hq => hpre q (List.mem_cons_of_mem _ hq)) hvi h1 h2
    · have hcond : ¬(e.code = w.code ∧ e.code ≠ "") :=
        (hpre (wj, w) (List.mem_cons_self _ _)).resolve_left hw2
      simp only [tier1Scan]
      rw [if_neg hw2, if_neg hcond]
      exact ih vi v post usedV (fun q hq => hpre q (List.mem_cons_of_mem _ hq)) hvi h1 h2

/-- C2: in Tier 1, for each unconsumed ERP invoice the scan walks unconsumed
vendor invoices in original order and pairs the first one whose normalized
code equals the ERP entry's (non-empty) code; both indices are consumed, the
scan stops there, and the record's status is `"Perfect Match"` exactly when
the absolute amount difference is strictly below `0.01`, else
`"Difference Match"`. -/
theorem c2_tier1_first_match (e : Entry) (pre post rest : List (ℕ × Entry))
    (vi ei : ℕ) (v : Entry) (usedV usedE : List ℕ)
    (hpre : ∀ p ∈ pre, p.1 ∈ usedV ∨ ¬(e.code = p.2.code ∧ e.code ≠ ""))
    (hvi : vi ∉ usedV) (hcode : e.code = v.code) (hne : e.code ≠ "")
    (hei : ei ∉ usedE) :
    tier1Scan e (pre ++ (vi, v) :: post) usedV = some (vi, v) ∧
    greedyLoop pick1 mkT1Rec ((ei, e) :: rest) (pre ++ (vi, v) :: post) usedE usedV =
      (mkT1Rec ei e vi v 0 ::
          (greedyLoop pick1 mkT1Rec rest (pre ++ (vi, v) :: post) (ei :: usedE) (vi :: usedV)).1,
        (greedyLoop pick1 mkT1Rec rest (pre ++ (vi, v) :: post) (ei :: usedE) (vi :: usedV)).2) ∧
    (mkT1Rec ei e vi v 0).status =
      (if abs (|e.amt| - |v.amt|) < 1/100 then "Perfect Match" else "Difference Match") := by
  have hscan := tier1Scan_first e pre vi v post usedV hpre hvi hcode hne
  refine ⟨hscan, ?_, rfl⟩
  simp only [greedyLoop]
  rw [if_neg hei]
  simp only [pick1, hscan]
  rfl

/-- C2 witness: a Tier-1 step at concrete entries — the first unconsumed
code-equal vendor entry (index 1, behind a non-matching index 0) is paired
and consumed. -/
theorem c2_witness :
    tier1Scan ⟨"INV 7", "7", 100, "", ""⟩
        [(0, ⟨"8", "8", 5, "", ""⟩), (1, ⟨"0007", "7", 1005/10, "", ""⟩)] [] =
      some (1, ⟨"0007", "7", 1005/10, "", ""⟩) ∧
    greedyLoop pick1 mkT1Rec [(0, ⟨"INV 7", "7", 100, "", ""⟩)]
        [(0, ⟨"8", "8", 5, "", ""⟩), (1, ⟨"0007", "7", 1005/10, "", ""⟩)] [] [] =
      (mkT1Rec 0 ⟨"INV 7", "7", 100, "", ""⟩ 1 ⟨"0007", "7", 1005/10, "", ""⟩ 0 ::
          (greedyLoop pick1 mkT1Rec []
            [(0, ⟨"8", "8", 5, "", ""⟩), (1, ⟨"0007", "7", 1005/10, "", ""⟩)] [0] [1]).1,
        (greedyLoop pick1 mkT1Rec []
          [(0, ⟨"8", "8", 5, "", ""⟩), (1, ⟨"0007", "7", 1005/10, "", ""⟩)] [0] [1]).2) ∧
    (mkT1Rec 0 ⟨"INV 7", "7", 100, "", ""⟩ 1 ⟨"0007", "7", 1005/10, "", ""⟩ 0).status =
      (if abs (|(100 : ℚ)| - |(1005/10 : ℚ)|) < 1/100 then "Perfect Match"
       else "Difference Match") :=
  c2_tier1_first_match ⟨"INV 7", "7", 100, "", ""⟩ [(0, ⟨"8", "8", 5, "", ""⟩)] []
    [] 1 0 ⟨"0007", "7", 1005/10, "", ""⟩ [] []
    (by intro p hp; simp at hp; rw [hp]; right; simp)
    (by simp) rfl (by simp) (by simp)

/-! ### C8 — payment matching by amount proximity -/

theorem payScan_mem {eAmt : ℚ} :
    ∀ {ven : List (ℕ × PayLine)} {usedV : List ℕ} {vi : ℕ} {v : PayLine},
      payScan eAmt ven usedV = some (vi, v) →
      (vi, v) ∈ ven ∧ vi ∉ usedV ∧ |eAmt - abs v.amt| ≤ 1/20 := by
  intro ven
  induction ven with
  | nil =>
    intro usedV vi v h
    simp [payScan] at h
  | cons p rest ih =>
    intro usedV vi v h
    obtain ⟨wj, w⟩ := p
    simp only [payScan] at h
    by_cases hw : wj ∈ usedV
    · rw [if_pos hw] at h
      obtain ⟨h1, h2, h3⟩ := ih h
      exact ⟨List.mem_cons_of_mem _ h1, h2, h3⟩
    · rw [if_neg hw] at h
      by_cases ht : |eAmt - abs w.amt| ≤ 1/20
      · rw [if_pos ht] at h
        obtain ⟨h1, h2⟩ := Prod.mk.injEq .. ▸ Option.some.inj h
        subst h1
        subst h2
        exact ⟨List.mem_cons_self _ _, hw, ht⟩
      · rw [if_neg ht] at h
        obtain ⟨h1, h2, h3⟩ := ih h
        exact ⟨List.mem_cons_of_mem _ h1, h2, h3⟩

theorem payScan_first (eAmt : ℚ) :
    ∀ (pre : List (ℕ × PayLine)) (vi : ℕ) (v : PayLine) (post : List (ℕ × PayLine))
      (usedV : List ℕ),
      (∀ p ∈ pre, p.1 ∈ usedV ∨ ¬(|eAmt - abs p.2.amt| ≤ 1/20)) →
      vi ∉ usedV → |eAmt - abs v.amt| ≤ 1/20 →
      payScan eAmt (pre ++ (vi, v) :: post) usedV = some (vi, v) := by
  intro pre
  induction pre with
  | nil =>
    intro vi v post usedV _ hvi ht
    rw [List.nil_append]
    simp only [payScan]
    rw [if_neg hvi, if_pos ht]
  | cons p rest ih =>
    intro vi v post usedV hpre hvi ht
    obtain ⟨wj, w⟩ := p
    rw [List.cons_append]
    simp only [payScan]
    by_cases hw : wj ∈ usedV
    · rw [if_pos hw]
      exact ih vi v post usedV (fun q hq => hpre q (List.mem_cons_of_mem _ hq)) hvi ht
    · have hcond := (hpre (wj, w) (List.mem_cons_self _ _)).resolve_left hw
      rw [if_neg hw, if_neg hcond]
      exact ih vi v post usedV (fun q hq => hpre q (List.mem_cons_of_mem _ hq)) hvi ht

theorem matchPaymentsLoop_sound :
    ∀ (erp ven : List (ℕ × PayLine)) (usedV : List ℕ),
      (∀ r ∈ (matchPaymentsLoop erp ven usedV).1,
        (∃ e, (r.eIdx, e) ∈ erp ∧ ∃ v, (r.vIdx, v) ∈ ven ∧
          abs (|e.amt| - |v.amt|) ≤ 1/20) ∧ r.vIdx ∉ usedV) ∧
      ((matchPaymentsLoop erp ven usedV).1.map PayRec.vIdx).Nodup := by
  intro erp
  induction erp with
  | nil =>
    intro ven usedV
    exact ⟨fun r hr => absurd hr (by simp [matchPaymentsLoop]), by simp [matchPaymentsLoop]⟩
  | cons p rest ih =>
    intro ven usedV
    obtain ⟨ei, e⟩ := p
    simp only [matchPaymentsLoop]
    cases hscan : payScan |e.amt| ven usedV with
    | none =>
      refine ⟨fun r hr => ?_, (ih ven usedV).2⟩
      obtain ⟨⟨e', he', v', hv', ht'⟩, hu'⟩ := (ih ven usedV).1 r hr
      exact ⟨⟨e', List.mem_cons_of_mem _ he', v', hv', ht'⟩, hu'⟩
    | some pv =>
      obtain ⟨vi, v⟩ := pv
      obtain ⟨hmem, hused, htol⟩ := payScan_mem hscan
      constructor
      · intro r hr
        rcases List.mem_cons.mp hr with hr | hr
        · subst hr
          exact ⟨⟨e, List.mem_cons_self _ _, v, hmem, htol⟩, hused⟩
        · obtain ⟨⟨e', he', v', hv', ht'⟩, hu'⟩ := ((ih ven (vi :: usedV)).1 r hr)
          exact ⟨⟨e', List.mem_cons_of_mem _ he', v', hv', ht'⟩,
            fun hx => hu' (List.mem_cons_of_mem _ hx)⟩
      · rw [List.map_cons, List.nodup_cons]
        refine ⟨fun hx => ?_, (ih ven (vi :: usedV)).2⟩
        obtain ⟨r, hr, hrx⟩ := List.mem_map.mp hx
        have := ((ih ven (vi :: usedV)).1 r hr).2
        rw [hrx] at this
        exact this (List.mem_cons_self _ _)

/-- C8: `match_payments` pairs an ERP payment line with a vendor payment
line only when their absolute amounts differ by at most `0.05`; scanning in
original order, the first qualifying unconsumed vendor line is taken, and
every vendor line appears in at most one matched-payment record. -/
theorem c8_match_payments (erp ven : List PayLine) :
    (∀ r ∈ matchPayments erp ven,
      ∃ e, (r.eIdx, e) ∈ erp.enum ∧ ∃ v, (r.vIdx, v) ∈ ven.enum ∧
        abs (|e.amt| - |v.amt|) ≤ 1/20) ∧
    ((matchPayments erp ven).map PayRec.vIdx).Nodup ∧
    (∀ (eAmt : ℚ) (pre : List (ℕ × PayLine)) (vi : ℕ) (v : PayLine)
        (post : List (ℕ × PayLine)) (usedV : List ℕ),
      (∀ p ∈ pre, p.1 ∈ usedV ∨ ¬(|eAmt - abs p.2.amt| ≤ 1/20)) →
      vi ∉ usedV → |eAmt - abs v.amt| ≤ 1/20 →
      payScan eAmt (pre ++ (vi, v) :: post) usedV = some (vi, v)) :=
  ⟨fun r hr => ((matchPaymentsLoop_sound erp.enum ven.enum []).1 r hr).1,
    (matchPaymentsLoop_sound erp.enum ven.enum []).2,
    payScan_first⟩

/-- C8 witness: the first-qualifying-scan clause at concrete payment lines —
the vendor line of amount `200` is out of tolerance for an ERP amount of
`100`, so the scan takes the line of amount `99.96`. -/
theorem c8_witness :
    payScan 100 [(0, ⟨200, ""⟩), (1, ⟨9996/100, ""⟩)] [] = some (1, ⟨9996/100, ""⟩) :=
  (c8_match_payments [] []).2.2 100 [(0, ⟨200, ""⟩)] 1 ⟨9996/100, ""⟩ [] []
    (by
      intro p hp
      simp only [List.mem_singleton] at hp
      subst hp
      right
      norm_num)
    (by simp)
    (by
      rw [show |(9996/100 : ℚ)| = 9996/100 from abs_of_nonneg (by norm_num), abs_le]
      constructor <;> norm_num)

/-! ### C3 — Tier-2 fuzzy best-match selection -/

theorem tier2Best_char (eAmt : ℚ) (eCode : String) :
    ∀ (ven : List (ℕ × Entry)) (usedV : List ℕ) (best : Option (ℕ × Entry × ℚ)) (bs : ℚ)
      (vi : ℕ) (v : Entry) (s : ℚ),
      tier2Best eAmt eCode ven usedV best bs = some (vi, v, s) →
      (best = some (vi, v, s) ∧
        ∀ p ∈ ven, p.1 ∉ usedV → |eAmt - abs p.2.amt| ≤ 1 →
          (sim2 eCode p.2 < 9/10 ∨ sim2 eCode p.2 ≤ bs)) ∨
      (∃ pre post, ven = pre ++ (vi, v) :: post ∧
        vi ∉ usedV ∧ |eAmt - abs v.amt| ≤ 1 ∧ s = sim2 eCode v ∧ 9/10 ≤ s ∧ bs < s ∧
        (∀ p ∈ pre, p.1 ∉ usedV → |eAmt - abs p.2.amt| ≤ 1 → 9/10 ≤ sim2 eCode p.2 →
          sim2 eCode p.2 < s) ∧
        (∀ p ∈ post, p.1 ∉ usedV → |eAmt - abs p.2.amt| ≤ 1 → 9/10 ≤ sim2 eCode p.2 →
          sim2 eCode p.2 ≤ s)) := by
  intro ven
  induction ven with
  | nil =>
    intro usedV best bs vi v s h
    simp only [tier2Best] at h
    exact Or.inl ⟨h, fun p hp => absurd hp (List.not_mem_nil p)⟩
  | cons q rest ih =>
    intro usedV best bs vi v s h
    obtain ⟨wj, w⟩ := q
    simp only [tier2Best] at h
    by_cases hw : wj ∈ usedV
    · rw [if_pos hw] at h
      rcases ih usedV best bs vi v s h with ⟨h1, h2⟩ |
        ⟨pre, post, hdec, hvi2, hwin2, hs2, h910, hbs2, hpre2, hpost2⟩
      · refine Or.inl ⟨h1, fun p hp hpu hpw => ?_⟩
        rcases List.mem_cons.mp hp with hq2 | hq2
        · subst hq2
          exact absurd hw hpu
        · exact h2 p hq2 hpu hpw
      · refine Or.inr ⟨(wj, w) :: pre, post, by rw [List.cons_append, hdec],
          hvi2, hwin2, hs2, h910, hbs2, ?_, hpost2⟩
        intro p hp hpu hpw hq
        rcases List.mem_cons.mp hp with hq2 | hq2
        · subst hq2
          exact absurd hw hpu
        · exact hpre2 p hq2 hpu hpw hq
    · rw [if_neg hw] at h
      by_cases hwin : 1 < |eAmt - abs w.amt|
      · rw [if_pos hwin] at h
        rcases ih usedV best bs vi v s h with ⟨h1, h2⟩ |
          ⟨pre, post, hdec, hvi2, hwin2, hs2, h910, hbs2, hpre2, hpost2⟩
        · refine Or.inl ⟨h1, fun p hp hpu hpw => ?_⟩
          rcases List.mem_cons.mp hp with hq2 | hq2
          · subst hq2
            exact absurd hpw (not_le.mpr hwin)
          · exact h2 p hq2 hpu hpw
        · refine Or.inr ⟨(wj, w) :: pre, post, by rw [List.cons_append, hdec],
            hvi2, hwin2, hs2, h910, hbs2, ?_, hpost2⟩
          intro p hp hpu hpw hq
          rcases List.mem_cons.mp hp with hq2 | hq2
          · subst hq2
            exact absurd hpw (not_le.mpr hwin)
          · exact hpre2 p hq2 hpu hpw hq
      · rw [if_neg hwin] at h
        by_cases hup : 9/10 ≤ sim2 eCode w ∧ bs < sim2 eCode w
        · rw [if_pos hup] at h
          rcases ih usedV (some (wj, w, sim2 eCode w)) (sim2 eCode w) vi v s h with ⟨h1, h2⟩ |
            ⟨pre, post, hdec, hvi2, hwin2, hs2, h910, hbs2, hpre2, hpost2⟩
          · have e1 := Option.some.inj h1
            rw [Prod.mk.injEq, Prod.mk.injEq] at e1
            obtain ⟨rfl, rfl, rfl⟩ := e1
            refine Or.inr ⟨[], rest, rfl, hw, not_lt.mp hwin, rfl, hup.1, hup.2,
              fun p hp => absurd hp (List.not_mem_nil p), ?_⟩
            intro p hp hpu hpw hq
            rcases h2 p hp hpu hpw with hlt | hle
            · exact absurd hq (not_le.mpr hlt)
            · exact hle
          · refine Or.inr ⟨(wj, w) :: pre, post, by rw [List.cons_append, hdec],
              hvi2, hwin2, hs2, h910, lt_trans hup.2 hbs2, ?_, hpost2⟩
            intro p hp hpu hpw hq
            rcases List.mem_cons.mp hp with hq2 | hq2
            · subst hq2
              exact hbs2
            · exact hpre2 p hq2 hpu hpw hq
        · rw [if_neg hup] at h
          rcases ih usedV best bs vi v s h with ⟨h1, h2⟩ |
            ⟨pre, post, hdec, hvi2, hwin2, hs2, h910, hbs2, hpre2, hpost2⟩
          · refine Or.inl ⟨h1, fun p hp hpu hpw => ?_⟩
            rcases List.mem_cons.mp hp with hq2 | hq2
            · subst hq2
              rcases not_and_or.mp hup with hh | hh
              · exact Or.inl (not_le.mp hh)
              · exact Or.inr (not_lt.mp hh)
            · exact h2 p hq2 hpu hpw
          · refine Or.inr ⟨(wj, w) :: pre, post, by rw [List.cons_append, hdec],
              hvi2, hwin2, hs2, h910, hbs2, ?_, hpost2⟩
            intro p hp hpu hpw hq
            rcases List.mem_cons.mp hp with hq2 | hq2
            · subst hq2
              rcases not_and_or.mp hup with hh | hh
              · exact absurd hq hh
              · exact lt_of_le_of_lt (not_lt.mp hh) hbs2
            · exact hpre2 p hq2 hpu hpw hq

theorem tier2Best_none (eAmt : ℚ) (eCode : String) :
    ∀ (ven : List (ℕ × Entry)) (usedV : List ℕ) (best : Option (ℕ × Entry × ℚ)) (bs : ℚ),
      tier2Best eAmt eCode ven usedV best bs = none →
      best = none ∧
        ∀ p ∈ ven, p.1 ∉ usedV → |eAmt - abs p.2.amt| ≤ 1 →
          (sim2 eCode p.2 < 9/10 ∨ sim2 eCode p.2 ≤ bs) := by
  intro ven
  induction ven with
  | nil =>
    intro usedV best bs h
    simp only [tier2Best] at h
    exact ⟨h, fun p hp => absurd hp (List.not_mem_nil p)⟩
  | cons q rest ih =>
    intro usedV best bs h
    obtain ⟨wj, w⟩ := q
    simp only [tier2Best] at h
    by_cases hw : wj ∈ usedV
    · rw [if_pos hw] at h
      obtain ⟨h1, h2⟩ := ih usedV best bs h
      refine ⟨h1, fun p hp hpu hpw => ?_⟩
      rcases List.mem_cons.mp hp with hq2 | hq2
      · subst hq2
        exact absurd hw hpu
      · exact h2 p hq2 hpu hpw
    · rw [if_neg hw] at h
      by_cases hwin : 1 < |eAmt - abs w.amt|
      · rw [if_pos hwin] at h
        obtain ⟨h1, h2⟩ := ih usedV best bs h
        refine ⟨h1, fun p hp hpu hpw => ?_⟩
        rcases List.mem_cons.mp hp with hq2 | hq2
        · subst hq2
          exact absurd hpw (not_le.mpr hwin)
        · exact h2 p hq2 hpu hpw
      · rw [if_neg hwin] at h
        by_cases hup : 9/10 ≤ sim2 eCode w ∧ bs < sim2 eCode w
        · rw [if_pos hup] at h
          exact absurd (ih usedV _ _ h).1 (by simp)
        · rw [if_neg hup] at h
          obtain ⟨h1, h2⟩ := ih usedV best bs h
          refine ⟨h1, fun p hp hpu hpw => ?_⟩
          rcases List.mem_cons.mp hp with hq2 | hq2
          · subst hq2
            rcases not_and_or.mp hup with hh | hh
            · exact Or.inl (not_le.mp hh)
            · exact Or.inr (not_lt.mp hh)
          · exact h2 p hq2 hpu hpw

/-- C3: in Tier 2, only unconsumed vendor entries whose amount lies within
`1.00` of the ERP amount are candidates; a candidate's similarity is `1`
when one cleaned code is a substring of the other and the `fuzzy_ratio`
otherwise (see `sim2`); the search returns a pair only when its similarity
is at least `0.90`, and the chosen candidate has the strictly highest
similarity among qualifying candidates, ties resolved in favor of the
earliest in scan order (every earlier qualifying candidate is strictly
worse, every later one no better). -/
theorem c3_tier2_best_match (eAmt : ℚ) (eCode : String) (ven : List (ℕ × Entry))
    (usedV : List ℕ) :
    (∀ vi v s, tier2Best eAmt eCode ven usedV none 0 = some (vi, v, s) →
      ∃ pre post, ven = pre ++ (vi, v) :: post ∧
        vi ∉ usedV ∧ |eAmt - abs v.amt| ≤ 1 ∧ s = sim2 eCode v ∧ 9/10 ≤ s ∧
        (∀ p ∈ pre, p.1 ∉ usedV → |eAmt - abs p.2.amt| ≤ 1 → 9/10 ≤ sim2 eCode p.2 →
          sim2 eCode p.2 < s) ∧
        (∀ p ∈ post, p.1 ∉ usedV → |eAmt - abs p.2.amt| ≤ 1 → 9/10 ≤ sim2 eCode p.2 →
          sim2 eCode p.2 ≤ s)) ∧
    (tier2Best eAmt eCode ven usedV none 0 = none →
      ∀ p ∈ ven, p.1 ∉ usedV → |eAmt - abs p.2.amt| ≤ 1 → sim2 eCode p.2 < 9/10) := by
  constructor
  · intro vi v s h
    rcases tier2Best_char eAmt eCode ven usedV none 0 vi v s h with ⟨h1, _⟩ |
      ⟨pre, post, hdec, hvi, hwin, hs, h910, _, hpre, hpost⟩
    · exact absurd h1 (by simp)
    · exact ⟨pre, post, hdec, hvi, hwin, hs, h910, hpre, hpost⟩
  · intro h p hp hpu hpw
    rcases (tier2Best_none eAmt eCode ven usedV none 0 h).2 p hp hpu hpw with hh | hh
    · exact hh
    · exact lt_of_le_of_lt hh (by norm_num)

/-- C3 witness: the best-match characterization applied at a concrete
one-entry vendor list whose cleaned code is a substring of the ERP code
(similarity `1`, amounts equal). -/
theorem c3_witness :
    tier2Best 100 "178" [(0, ⟨"178", "178", 100, "", ""⟩)] [] none 0 =
      some (0, ⟨"178", "178", 100, "", ""⟩, 1) ∧
    (∃ pre post,
      [(0, (⟨"178", "178", 100, "", ""⟩ : Entry))] =
        pre ++ (0, (⟨"178", "178", 100, "", ""⟩ : Entry)) :: post ∧
      (0 : ℕ) ∉ ([] : List ℕ) ∧
      |(100 : ℚ) - abs (⟨"178", "178", 100, "", ""⟩ : Entry).amt| ≤ 1 ∧
      (1 : ℚ) = sim2 "178" ⟨"178", "178", 100, "", ""⟩ ∧ (9 : ℚ)/10 ≤ 1 ∧
      (∀ p ∈ pre, p.1 ∉ ([] : List ℕ) → |(100 : ℚ) - abs p.2.amt| ≤ 1 →
        9/10 ≤ sim2 "178" p.2 → sim2 "178" p.2 < 1) ∧
      (∀ p ∈ post, p.1 ∉ ([] : List ℕ) → |(100 : ℚ) - abs p.2.amt| ≤ 1 →
        9/10 ≤ sim2 "178" p.2 → sim2 "178" p.2 ≤ 1)) := by
  have hrun : tier2Best 100 "178" [(0, ⟨"178", "178", 100, "", ""⟩)] [] none 0 =
      some (0, ⟨"178", "178", 100, "", ""⟩, 1) := by
    have hs : sim2 "178" (⟨"178", "178", 100, "", ""⟩ : Entry) = 1 := by
      simp only [sim2]
      rw [if_pos (by decide)]
    simp only [tier2Best, hs]
    rw [if_neg (List.not_mem_nil 0)]
    rw [if_neg (show ¬((1:ℚ) < |100 - abs (100:ℚ)|) by
      rw [abs_of_nonneg (by norm_num : (0:ℚ) ≤ 100), sub_self, abs_zero]; norm_num)]
    rw [if_pos (by norm_num : (9:ℚ)/10 ≤ 1 ∧ (0:ℚ) < 1)]
  exact ⟨hrun,
    (c3_tier2_best_match 100 "178" [(0, ⟨"178", "178", 100, "", ""⟩)] []).1
      0 ⟨"178", "178", 100, "", ""⟩ 1 hrun⟩

/-! ### C4 — zero-net groups are dropped entirely -/

theorem group_filter_eq (t : Table) (tag : String) {c : String}
    (hvalid : validCode c = true) :
    (invoiceRows t tag).filter (fun r => decide (invClean tag r = c)) =
      t.rows.filter (fun r => decide (invClean tag r = c)) := by
  unfold invoiceRows
  rw [List.filter_filter]
  apply List.filter_congr
  intro r _
  by_cases hrc : invClean tag r = c
  · rw [hrc]
    simp [hvalid]
  · simp [hrc]

/-- C4: for every side and every usable normalized code, if the rounded
netted amount of the rows carrying that code has absolute value strictly
below `0.01`, then consolidation emits no `ConsolidatedInvoice` with that
code and none of the group's members reaches the payment output either —
the group vanishes from every output set. -/
theorem c4_zero_net_group_dropped (t : Table) (tag : String)
    (f : RowMap → String → String → ℚ) (c : String)
    (hc1 : c ≠ "") (hc2 : c ≠ "0")
    (hnet : |round2 (((t.rows.filter (fun r => decide (invClean tag r = c))).map
        (fun r => f r ("debit_" ++ tag) ("credit_" ++ tag))).sum)| < 1/100) :
    (∀ e ∈ (consolidateInvoices t tag f).1, e.code ≠ c) ∧
    (∀ r ∈ (consolidateInvoices t tag f).2, invClean tag r ≠ c) := by
  have hvalid : validCode c = true := by
    simp [validCode, hc1, hc2]
  unfold consolidateInvoices
  by_cases hcol : ("invoice_" ++ tag) ∈ t.cols
  · rw [if_pos hcol]
    constructor
    · intro e he heq
      obtain ⟨c', _, hc'⟩ := List.mem_filterMap.mp he
      unfold consGroup at hc'
      by_cases hz : c' = "" ∨ c' = "0"
      · rw [if_pos hz] at hc'
        exact absurd hc' (by simp)
      · rw [if_neg hz] at hc'
        by_cases hsmall : |round2 ((((invoiceRows t tag).filter
            (fun r => decide (invClean tag r = c'))).map
              (fun r => f r ("debit_" ++ tag) ("credit_" ++ tag))).sum)| < 1/100
        · rw [if_pos hsmall] at hc'
          exact absurd hc' (by simp)
        · rw [if_neg hsmall] at hc'
          obtain ⟨base, _, hbase⟩ := Option.map_eq_some'.mp hc'
          have hcode : e.code = c' := by rw [← hbase]
          rw [heq] at hcode
          rw [← hcode] at hsmall
          rw [group_filter_eq t tag hvalid] at hsmall
          exact hsmall hnet
    · intro r hr heq
      have h2 := (List.mem_filter.mp hr).2
      rw [heq] at h2
      rw [hvalid] at h2
      exact absurd h2 (by simp)
  · rw [if_neg hcol]
    exact ⟨fun e he => absurd he (by simp), fun r hr => absurd hr (by simp)⟩

/-- C4 witness: a one-row table whose only row carries code `"42"`; for the
absent code `"9"` the group nets to zero and no output mentions it. -/
theorem c4_witness :
    (("9" : String) ≠ "") ∧ (("9" : String) ≠ "0") ∧
    |round2 ((((⟨["invoice_erp"], [[("invoice_erp", "INV-42"), ("credit_erp", "100")]]⟩ :
        Table).rows.filter (fun r => decide (invClean "erp" r = "9"))).map
          (fun r => calculateAmountErp r ("debit_" ++ "erp") ("credit_" ++ "erp"))).sum)| < 1/100 ∧
    (∀ e ∈ (consolidateInvoices
        ⟨["invoice_erp"], [[("invoice_erp", "INV-42"), ("credit_erp", "100")]]⟩ "erp"
        calculateAmountErp).1, e.code ≠ "9") ∧
    (∀ r ∈ (consolidateInvoices
        ⟨["invoice_erp"], [[("invoice_erp", "INV-42"), ("credit_erp", "100")]]⟩ "erp"
        calculateAmountErp).2, invClean "erp" r ≠ "9") := by
  have hfilter : ((⟨["invoice_erp"], [[("invoice_erp", "INV-42"), ("credit_erp", "100")]]⟩ :
      Table).rows.filter (fun r => decide (invClean "erp" r = "9"))) = [] := by
    decide
  have hnet : |round2 ((((⟨["invoice_erp"],
      [[("invoice_erp", "INV-42"), ("credit_erp", "100")]]⟩ :
      Table).rows.filter (fun r => decide (invClean "erp" r = "9"))).map
        (fun r => calculateAmountErp r ("debit_" ++ "erp") ("credit_" ++ "erp"))).sum)| <
        1/100 := by
    rw [hfilter]
    simp only [List.map_nil, List.sum_nil]
    rw [show round2 0 = 0 by simp [round2, roundHE]]
    norm_num
  refine ⟨by decide, by decide, hnet, ?_⟩
  exact c4_zero_net_group_dropped
    ⟨["invoice_erp"], [[("invoice_erp", "INV-42"), ("credit_erp", "100")]]⟩ "erp"
    calculateAmountErp "9" (by decide) (by decide) hnet

/-! ### C5 — consolidation conservation (uploaded variant) -/

theorem mem_insertKey {x c : String} :
    ∀ {l : List String}, x ∈ insertKey c l ↔ x = c ∨ x ∈ l := by
  intro l
  induction l with
  | nil => simp [insertKey]
  | cons k ks ih =>
    simp only [insertKey]
    by_cases h1 : c = k
    · rw [if_pos h1]
      subst h1
      simp only [List.mem_cons]
      tauto
    · rw [if_neg h1]
      by_cases h2 : c < k
      · rw [if_pos h2]
        simp [List.mem_cons]
      · rw [if_neg h2]
        simp only [List.mem_cons, ih]
        tauto

theorem mem_sortedKeys_aux {x : String} :
    ∀ (l acc : List String),
      (x ∈ l.foldl (fun acc c => insertKey c acc) acc ↔ x ∈ acc ∨ x ∈ l) := by
  intro l
  induction l with
  | nil => simp
  | cons c cs ih =>
    intro acc
    simp only [List.foldl_cons, ih, mem_insertKey, List.mem_cons]
    tauto

theorem mem_sortedKeys {x : String} {l : List String} :
    x ∈ sortedKeys l ↔ x ∈ l := by
  unfold sortedKeys
  rw [mem_sortedKeys_aux]
  simp

/-- C5: for every group (usable code) whose signed net under the
invoice/credit-note sign rule rounds to a non-zero amount, the uploaded
variant's consolidation emits an entry with that code, and every emitted
entry with that code has exactly the rounded signed net of the group's
per-line contributions `signedVal` (raw `debit − credit`, forced
non-positive for credit notes and non-negative for invoices). -/
theorem c5_consolidation_conservation (rows : List URow) (c : String)
    (hc1 : c ≠ "") (hc2 : c ≠ "0")
    (hnz : round2 (((rows.filter (fun r => decide (cleanInvoiceCode r.invoice = c))).map
      signedVal).sum) ≠ 0) :
    (∃ e ∈ consolidateU rows, e.code = c) ∧
    (∀ e ∈ consolidateU rows, e.code = c →
      e.net = round2 (((rows.filter (fun r => decide (cleanInvoiceCode r.invoice = c))).map
        signedVal).sum)) := by
  have hz : ¬(c = "" ∨ c = "0") := by
    rintro (h | h)
    · exact hc1 h
    · exact hc2 h
  have habs : ¬(|round2 (((rows.filter (fun r =>
      decide (cleanInvoiceCode r.invoice = c))).map signedVal).sum)| = 0) := by
    rw [abs_eq_zero]
    exact hnz
  constructor
  · -- the group is non-empty, else its net would round to zero
    have hex : ∃ r ∈ rows, cleanInvoiceCode r.invoice = c := by
      by_contra hno
      push_neg at hno
      have hfil : rows.filter (fun r => decide (cleanInvoiceCode r.invoice = c)) = [] := by
        apply List.filter_eq_nil_iff.mpr
        intro r hr
        simpa using hno r hr
      rw [hfil] at hnz
      simp only [List.map_nil, List.sum_nil] at hnz
      exact hnz (by simp [round2, roundHE])
    obtain ⟨r0, hr0, hr0c⟩ := hex
    have hg : r0 ∈ rows.filter (fun r => decide (cleanInvoiceCode r.invoice = c)) :=
      List.mem_filter.mpr ⟨hr0, by simpa using hr0c⟩
    have hkey : c ∈ sortedKeys (rows.map (fun r => cleanInvoiceCode r.invoice)) :=
      mem_sortedKeys.mpr (List.mem_map.mpr ⟨r0, hr0, hr0c⟩)
    -- the group function produces an entry
    obtain ⟨b, hb⟩ : ∃ b, (match (rows.filter (fun r =>
        decide (cleanInvoiceCode r.invoice = c))).filter
          (fun r => decide (r.type = UType.INV)) with
        | b :: _ => some b
        | [] => (rows.filter (fun r => decide (cleanInvoiceCode r.invoice = c))).head?) =
          some b := by
      cases hinv : (rows.filter (fun r => decide (cleanInvoiceCode r.invoice = c))).filter
          (fun r => decide (r.type = UType.INV)) with
      | cons b rest => exact ⟨b, rfl⟩
      | nil =>
        cases hgl : rows.filter (fun r => decide (cleanInvoiceCode r.invoice = c)) with
        | nil => rw [hgl] at hg; exact absurd hg (List.not_mem_nil r0)
        | cons b rest => exact ⟨b, rfl⟩
    have hsome : consGroupU rows c = some
        { invoice := b.invoice, code := c,
          net := round2 (((rows.filter (fun r =>
            decide (cleanInvoiceCode r.invoice = c))).map signedVal).sum),
          amt := |round2 (((rows.filter (fun r =>
            decide (cleanInvoiceCode r.invoice = c))).map signedVal).sum)| } := by
      unfold consGroupU
      rw [if_neg hz, if_neg habs, hb]
      rfl
    exact ⟨_, List.mem_filterMap.mpr ⟨c, hkey, hsome⟩, rfl⟩
  · intro e he heq
    obtain ⟨c', _, hc'⟩ := List.mem_filterMap.mp he
    unfold consGroupU at hc'
    by_cases hz' : c' = "" ∨ c' = "0"
    · rw [if_pos hz'] at hc'
      exact absurd hc' (by simp)
    · rw [if_neg hz'] at hc'
      by_cases habs' : |round2 (((rows.filter (fun r =>
          decide (cleanInvoiceCode r.invoice = c'))).map signedVal).sum)| = 0
      · rw [if_pos habs'] at hc'
        exact absurd hc' (by simp)
      · rw [if_neg habs'] at hc'
        obtain ⟨b, _, hb2⟩ := Option.map_eq_some'.mp hc'
        have hcode : e.code = c' := by rw [← hb2]
        have hnet : e.net = round2 (((rows.filter (fun r =>
            decide (cleanInvoiceCode r.invoice = c'))).map signedVal).sum) := by
          rw [← hb2]
        rw [heq] at hcode
        rw [hcode]
        exact hnet

/-- C5 witness: the conservation statement at a concrete two-row group —
an invoice of `200` plus a credit note of `50` for code `"123"` nets to
`150`. -/
theorem c5_witness :
    (("123" : String) ≠ "") ∧ (("123" : String) ≠ "0") ∧
    round2 (((([⟨"INV 123", "200", "", UType.INV, ""⟩,
        ⟨"CN 123", "", "50", UType.CN, ""⟩] : List URow).filter
          (fun r => decide (cleanInvoiceCode r.invoice = "123"))).map signedVal).sum) ≠ 0 ∧
    ((∃ e ∈ consolidateU [⟨"INV 123", "200", "", UType.INV, ""⟩,
        ⟨"CN 123", "", "50", UType.CN, ""⟩], e.code = "123") ∧
      (∀ e ∈ consolidateU [⟨"INV 123", "200", "", UType.INV, ""⟩,
          ⟨"CN 123", "", "50", UType.CN, ""⟩], e.code = "123" →
        e.net = round2 (((([⟨"INV 123", "200", "", UType.INV, ""⟩,
          ⟨"CN 123", "", "50", UType.CN, ""⟩] : List URow).filter
            (fun r => decide (cleanInvoiceCode r.invoice = "123"))).map signedVal).sum))) := by
  have hfil : (([⟨"INV 123", "200", "", UType.INV, ""⟩,
      ⟨"CN 123", "", "50", UType.CN, ""⟩] : List URow).filter
        (fun r => decide (cleanInvoiceCode r.invoice = "123"))) =
      [⟨"INV 123", "200", "", UType.INV, ""⟩, ⟨"CN 123", "", "50", UType.CN, ""⟩] := by
    decide
  have hsum : (([⟨"INV 123", "200", "", UType.INV, ""⟩,
      ⟨"CN 123", "", "50", UType.CN, ""⟩] : List URow).map signedVal).sum = 150 := by
    simp [signedVal, normalizeNumber, pyStrip, sepFix, parseFloat, digitsVal, removeFirstN,
      numKeep, List.findIdx_cons]
    norm_num
  have hnz : round2 (((([⟨"INV 123", "200", "", UType.INV, ""⟩,
      ⟨"CN 123", "", "50", UType.CN, ""⟩] : List URow).filter
        (fun r => decide (cleanInvoiceCode r.invoice = "123"))).map signedVal).sum) ≠ 0 := by
    rw [hfil, hsum]
    norm_num [round2, roundHE]
  exact ⟨by decide, by decide, hnz,
    c5_consolidation_conservation
      [⟨"INV 123", "200", "", UType.INV, ""⟩, ⟨"CN 123", "", "50", UType.CN, ""⟩]
      "123" (by decide) (by decide) hnz⟩

/-! ### C9 — no invoice-like column detected ⇒ empty consolidated set -/

theorem infixB_of_pfx {a b : List Char} (h : a <+: b) : infixB a b = true := by
  cases b with
  | nil =>
    obtain ⟨t, ht⟩ := h
    obtain ⟨rfl, -⟩ := List.append_eq_nil.mp ht
    rfl
  | cons x bs =>
    unfold infixB
    rw [Bool.or_eq_true]
    exact Or.inl (List.isPrefixOf_iff_prefix.mpr h)

theorem colKey_invoice_pfx (tag : String) :
    "invoice".data <+: colKey ("invoice_" ++ tag) := by
  unfold colKey pyStrip
  rw [String.data_append]
  have h1 : ("invoice_" : String).data.dropWhile Char.isWhitespace = ("invoice_" : String).data := by
    decide
  rw [List.dropWhile_append, h1]
  rw [if_neg (by decide)]
  rw [List.reverse_append]
  rw [List.dropWhile_append]
  by_cases h2 : (tag.data.reverse.dropWhile Char.isWhitespace).isEmpty = true
  · rw [if_pos h2]
    rw [show ("invoice_" : String).data.reverse.dropWhile Char.isWhitespace =
      ("invoice_" : String).data.reverse from by decide]
    rw [List.reverse_reverse]
    have : ("invoice".data.map lowChar) <+: ("invoice_" : String).data.map lowChar := by
      decide
    calc "invoice".data = "invoice".data.map lowChar := by decide
      _ <+: ("invoice_" : String).data.map lowChar := this
  · rw [if_neg h2]
    rw [List.reverse_append, List.reverse_reverse, List.map_append]
    calc "invoice".data = "invoice".data.map lowChar := by decide
      _ <+: ("invoice_" : String).data.map lowChar := by decide
      _ <+: ("invoice_" : String).data.map lowChar ++
          ((tag.data.reverse.dropWhile Char.isWhitespace).reverse.map lowChar) :=
        List.prefix_append _ _

theorem aliasHit_invoice_literal (tag : String) :
    aliasHit invoiceAliases ("invoice_" ++ tag) = true := by
  unfold aliasHit invoiceAliases
  rw [List.any_cons, Bool.or_eq_true]
  exact Or.inl (infixB_of_pfx (colKey_invoice_pfx tag))

theorem append_tag_ne {a b : String} (h : a.length ≠ b.length) (tag : String) :
    a ++ tag ≠ b ++ tag := by
  intro he
  have h2 := congrArg String.length he
  rw [String.length_append, String.length_append] at h2
  exact h (Nat.add_right_cancel h2)

theorem processKey_mem {cols : List String} {tag : String} {m : List (String × String)}
    {key : String} {aliases : List String} {p : String × String}
    (hp : p ∈ processKey cols tag m key aliases) :
    p ∈ m ∨ p.2 = key ++ "_" ++ tag := by
  unfold processKey at hp
  split at hp
  · exact Or.inl hp
  · split at hp
    · exact Or.inl hp
    · unfold assocSet at hp
      split at hp
      · obtain ⟨q, hq, hqe⟩ := List.mem_map.mp hp
        split at hqe
        · right
          rw [← hqe]
        · left
          rw [← hqe]
          exact hq
      · rcases List.mem_append.mp hp with h1 | h1
        · exact Or.inl h1
        · right
          rw [List.mem_singleton.mp h1]

theorem buildRenameMap_values {cols : List String} {tag : String}
    (h : ∀ c ∈ cols, aliasHit invoiceAliases c = false) :
    ∀ p ∈ buildRenameMap cols tag,
      p.2 = "debit" ++ "_" ++ tag ∨ p.2 = "credit" ++ "_" ++ tag ∨
      p.2 = "amount" ++ "_" ++ tag ∨ p.2 = "date" ++ "_" ++ tag ∨
      p.2 = "entity" ++ "_" ++ tag := by
  intro p hp
  have hinv : processKey cols tag [] "invoice" invoiceAliases = [] := by
    unfold processKey
    rw [List.find?_eq_none.mpr (fun c hc => by simp [h c hc])]
  unfold buildRenameMap mappingList at hp
  simp only [List.foldl_cons, List.foldl_nil] at hp
  rw [hinv] at hp
  rcases processKey_mem hp with hp | hv
  · rcases processKey_mem hp with hp | hv
    · rcases processKey_mem hp with hp | hv
      · rcases processKey_mem hp with hp | hv
        · rcases processKey_mem hp with hp | hv
          · exact absurd hp (List.not_mem_nil p)
          · exact Or.inl hv
        · exact Or.inr (Or.inl hv)
      · exact Or.inr (Or.inr (Or.inl hv))
    · exact Or.inr (Or.inr (Or.inr (Or.inl hv)))
  · exact Or.inr (Or.inr (Or.inr (Or.inr hv)))

/-- C9: for every input table in which no column header hits an invoice
alias during normalization, consolidation of the normalized table returns an
empty consolidated set (and an empty payment set) for that side rather than
an error. -/
theorem c9_no_invoice_column (cols : List String) (rows : List RowMap) (tag : String)
    (f : RowMap → String → String → ℚ)
    (h : ∀ c ∈ cols, aliasHit invoiceAliases c = false) :
    consolidateInvoices ⟨normalizeColumnNames cols tag, rows⟩ tag f = ([], []) := by
  have hout : ("invoice_" ++ tag) ∉ cols.map (renameCol (buildRenameMap cols tag)) := by
    intro hmem
    obtain ⟨c, hc, hrc⟩ := List.mem_map.mp hmem
    unfold renameCol at hrc
    cases hfind : (buildRenameMap cols tag).find? (fun p => decide (p.1 = c)) with
    | some pr =>
      rw [hfind] at hrc
      simp at hrc
      have hpr := buildRenameMap_values h pr (List.mem_of_find?_eq_some hfind)
      rcases hpr with hv | hv | hv | hv | hv <;> rw [hv] at hrc <;>
        exact append_tag_ne (by decide) tag hrc
    | none =>
      rw [hfind] at hrc
      simp at hrc
      rw [hrc] at hc
      exact absurd (aliasHit_invoice_literal tag) (by rw [h _ hc]; simp)
  have hensure : ∀ (c : String) (out : List String) (x : String),
      x ∈ ensureCol c out → x ∈ out ∨ x = c := by
    intro c out x hx
    unfold ensureCol at hx
    split at hx
    · exact Or.inl hx
    · rcases List.mem_append.mp hx with h1 | h1
      · exact Or.inl h1
      · exact Or.inr (List.mem_singleton.mp h1)
  have hnotin : ("invoice_" ++ tag) ∉ normalizeColumnNames cols tag := by
    intro hin
    unfold normalizeColumnNames at hin
    have hne_d : ("invoice_" ++ tag) ≠ "debit_" ++ tag := append_tag_ne (by decide) tag
    have hne_c : ("invoice_" ++ tag) ≠ "credit_" ++ tag := append_tag_ne (by decide) tag
    rcases hensure _ _ _ hin with hin2 | hin2
    · rcases hensure _ _ _ hin2 with hin3 | hin3
      · exact hout hin3
      · exact hne_d hin3
    · exact hne_c hin2
  unfold consolidateInvoices
  rw [if_neg hnotin]

/-- C9 witness: a table whose headers are `Fecha` and `Debe` (date and debit
aliases only — no invoice-like column); consolidation returns empty outputs. -/
theorem c9_witness :
    (∀ c ∈ ["Fecha", "Debe"], aliasHit invoiceAliases c = false) ∧
    consolidateInvoices
      ⟨normalizeColumnNames ["Fecha", "Debe"] "erp",
        [[("Fecha", "2023-01-01"), ("Debe", "100")]]⟩ "erp" calculateAmountErp = ([], []) :=
  ⟨by decide,
    c9_no_invoice_column ["Fecha", "Debe"] [[("Fecha", "2023-01-01"), ("Debe", "100")]] "erp"
      calculateAmountErp (by decide)⟩

/-! ### C1 — consume-once and no-silent-drop across the full run -/

theorem greedyLoop_usedE
    (pick : Entry → List (ℕ × Entry) → List ℕ → Option (ℕ × Entry × ℚ))
    (mk : ℕ → Entry → ℕ → Entry → ℚ → MatchRec)
    (HmkE : ∀ ei e vi v s, (mk ei e vi v s).eIdx = ei) :
    ∀ (erp ven : List (ℕ × Entry)) (usedE usedV : List ℕ),
      (greedyLoop pick mk erp ven usedE usedV).2.1 =
        ((greedyLoop pick mk erp ven usedE usedV).1.map MatchRec.eIdx).reverse ++ usedE := by
  intro erp
  induction erp with
  | nil =>
    intro ven usedE usedV
    simp [greedyLoop]
  | cons p rest ih =>
    intro ven usedE usedV
    obtain ⟨ei, e⟩ := p
    simp only [greedyLoop]
    by_cases hei : ei ∈ usedE
    · rw [if_pos hei]
      exact ih ven usedE usedV
    · rw [if_neg hei]
      cases hpick : pick e ven usedV with
      | none => exact ih ven usedE usedV
      | some t =>
        obtain ⟨vi, v, s⟩ := t
        simp only [List.map_cons, HmkE, List.reverse_cons, List.append_assoc,
          List.singleton_append]
        exact ih ven (ei :: usedE) (vi :: usedV)

theorem greedyLoop_usedV
    (pick : Entry → List (ℕ × Entry) → List ℕ → Option (ℕ × Entry × ℚ))
    (mk : ℕ → Entry → ℕ → Entry → ℚ → MatchRec)
    (HmkV : ∀ ei e vi v s, (mk ei e vi v s).vIdx = vi) :
    ∀ (erp ven : List (ℕ × Entry)) (usedE usedV : List ℕ),
      (greedyLoop pick mk erp ven usedE usedV).2.2 =
        ((greedyLoop pick mk erp ven usedE usedV).1.map MatchRec.vIdx).reverse ++ usedV := by
  intro erp
  induction erp with
  | nil =>
    intro ven usedE usedV
    simp [greedyLoop]
  | cons p rest ih =>
    intro ven usedE usedV
    obtain ⟨ei, e⟩ := p
    simp only [greedyLoop]
    by_cases hei : ei ∈ usedE
    · rw [if_pos hei]
      exact ih ven usedE usedV
    · rw [if_neg hei]
      cases hpick : pick e ven usedV with
      | none => exact ih ven usedE usedV
      | some t =>
        obtain ⟨vi, v, s⟩ := t
        simp only [List.map_cons, HmkV, List.reverse_cons, List.append_assoc,
          List.singleton_append]
        exact ih ven (ei :: usedE) (vi :: usedV)

theorem greedyLoop_eIdx_sublist
    (pick : Entry → List (ℕ × Entry) → List ℕ → Option (ℕ × Entry × ℚ))
    (mk : ℕ → Entry → ℕ → Entry → ℚ → MatchRec)
    (HmkE : ∀ ei e vi v s, (mk ei e vi v s).eIdx = ei) :
    ∀ (erp ven : List (ℕ × Entry)) (usedE usedV : List ℕ),
      ((greedyLoop pick mk erp ven usedE usedV).1.map MatchRec.eIdx).Sublist
        (erp.map Prod.fst) := by
  intro erp
  induction erp with
  | nil =>
    intro ven usedE usedV
    simp [greedyLoop]
  | cons p rest ih =>
    intro ven usedE usedV
    obtain ⟨ei, e⟩ := p
    simp only [greedyLoop, List.map_cons]
    by_cases hei : ei ∈ usedE
    · rw [if_pos hei]
      exact (ih ven usedE usedV).cons ei
    · rw [if_neg hei]
      cases hpick : pick e ven usedV with
      | none => exact (ih ven usedE usedV).cons ei
      | some t =>
        obtain ⟨vi, v, s⟩ := t
        simp only [List.map_cons, HmkE]
        exact (ih ven (ei :: usedE) (vi :: usedV)).cons₂ ei

theorem greedyLoop_vIdx
    (pick : Entry → List (ℕ × Entry) → List ℕ → Option (ℕ × Entry × ℚ))
    (mk : ℕ → Entry → ℕ → Entry → ℚ → MatchRec)
    (HmkV : ∀ ei e vi v s, (mk ei e vi v s).vIdx = vi)
    (ven : List (ℕ × Entry))
    (Hpick : ∀ e usedV vi v s, pick e ven usedV = some (vi, v, s) →
      vi ∈ ven.map Prod.fst ∧ vi ∉ usedV) :
    ∀ (erp : List (ℕ × Entry)) (usedE usedV : List ℕ),
      (∀ x ∈ (greedyLoop pick mk erp ven usedE usedV).1.map MatchRec.vIdx,
        x ∈ ven.map Prod.fst ∧ x ∉ usedV) ∧
      ((greedyLoop pick mk erp ven usedE usedV).1.map MatchRec.vIdx).Nodup := by
  intro erp
  induction erp with
  | nil =>
    intro usedE usedV
    constructor
    · intro x hx
      simp [greedyLoop] at hx
    · simp [greedyLoop]
  | cons p rest ih =>
    intro usedE usedV
    obtain ⟨ei, e⟩ := p
    simp only [greedyLoop]
    by_cases hei : ei ∈ usedE
    · rw [if_pos hei]
      exact ih usedE usedV
    · rw [if_neg hei]
      cases hpick : pick e ven usedV with
      | none => exact ih usedE usedV
      | some t =>
        obtain ⟨vi, v, s⟩ := t
        obtain ⟨hvmem, hvused⟩ := Hpick e usedV vi v s hpick
        have htail := ih (ei :: usedE) (vi :: usedV)
        constructor
        · intro x hx
          simp only [List.map_cons, HmkV, List.mem_cons] at hx
          rcases hx with rfl | hx
          · exact ⟨hvmem, hvused⟩
          · obtain ⟨hm, hnm⟩ := htail.1 x hx
            exact ⟨hm, fun hc => hnm (List.mem_cons_of_mem _ hc)⟩
        · simp only [List.map_cons, HmkV, List.nodup_cons]
          refine ⟨fun hc => ?_, htail.2⟩
          exact (htail.1 vi hc).2 (List.mem_cons_self _ _)

theorem tier1Scan_pick_mem (e : Entry) :
    ∀ (ven : List (ℕ × Entry)) (usedV : List ℕ) (vi : ℕ) (v : Entry),
      tier1Scan e ven usedV = some (vi, v) →
      vi ∈ ven.map Prod.fst ∧ vi ∉ usedV := by
  intro ven
  induction ven with
  | nil =>
    intro usedV vi v h
    simp [tier1Scan] at h
  | cons p rest ih =>
    intro usedV vi v h
    obtain ⟨wi, w⟩ := p
    simp only [tier1Scan] at h
    by_cases hw : wi ∈ usedV
    · rw [if_pos hw] at h
      obtain ⟨hm, hn⟩ := ih usedV vi v h
      exact ⟨List.mem_cons_of_mem _ hm, hn⟩
    · rw [if_neg hw] at h
      by_cases hc : e.code = w.code ∧ e.code ≠ ""
      · rw [if_pos hc] at h
        obtain ⟨rfl, rfl⟩ : wi = vi ∧ w = v := by
          have := h
          simp at this
          exact ⟨this.1, this.2⟩
        exact ⟨List.mem_cons_self _ _, hw⟩
      · rw [if_neg hc] at h
        obtain ⟨hm, hn⟩ := ih usedV vi v h
        exact ⟨List.mem_cons_of_mem _ hm, hn⟩

theorem tier2Best_pick_mem (eAmt : ℚ) (eCode : String) :
    ∀ (ven : List (ℕ × Entry)) (usedV : List ℕ) (best : Option (ℕ × Entry × ℚ))
      (bs : ℚ) (vi : ℕ) (v : Entry) (s : ℚ),
      tier2Best eAmt eCode ven usedV best bs = some (vi, v, s) →
      best = some (vi, v, s) ∨ (vi ∈ ven.map Prod.fst ∧ vi ∉ usedV) := by
  intro ven
  induction ven with
  | nil =>
    intro usedV best bs vi v s h
    simp only [tier2Best] at h
    exact Or.inl h
  | cons p rest ih =>
    intro usedV best bs vi v s h
    obtain ⟨wi, w⟩ := p
    simp only [tier2Best] at h
    by_cases hw : wi ∈ usedV
    · rw [if_pos hw] at h
      rcases ih usedV best bs vi v s h with hb | ⟨hm, hn⟩
      · exact Or.inl hb
      · exact Or.inr ⟨List.mem_cons_of_mem _ hm, hn⟩
    · rw [if_neg hw] at h
      by_cases hamt : 1 < |eAmt - abs w.amt|
      · rw [if_pos hamt] at h
        rcases ih usedV best bs vi v s h with hb | ⟨hm, hn⟩
        · exact Or.inl hb
        · exact Or.inr ⟨List.mem_cons_of_mem _ hm, hn⟩
      · rw [if_neg hamt] at h
        by_cases hsim : 9/10 ≤ sim2 eCode w ∧ bs < sim2 eCode w
        · rw [if_pos hsim] at h
          rcases ih usedV (some (wi, w, sim2 eCode w)) (sim2 eCode w) vi v s h with
            hb | ⟨hm, hn⟩
          · obtain ⟨rfl, rfl, rfl⟩ : wi = vi ∧ w = v ∧ sim2 eCode w = s := by
              have := hb
              simp at this
              exact ⟨this.1, this.2.1, this.2.2⟩
            exact Or.inr ⟨List.mem_cons_self _ _, hw⟩
          · exact Or.inr ⟨List.mem_cons_of_mem _ hm, hn⟩
        · rw [if_neg hsim] at h
          rcases ih usedV best bs vi v s h with hb | ⟨hm, hn⟩
          · exact Or.inl hb
          · exact Or.inr ⟨List.mem_cons_of_mem _ hm, hn⟩

theorem tier3Scan_pick_mem (eDate eCode : String) :
    ∀ (ven : List (ℕ × Entry)) (usedV : List ℕ) (vi : ℕ) (v : Entry) (s : ℚ),
      tier3Scan eDate eCode ven usedV = some (vi, v, s) →
      vi ∈ ven.map Prod.fst ∧ vi ∉ usedV := by
  intro ven
  induction ven with
  | nil =>
    intro usedV vi v s h
    simp [tier3Scan] at h
  | cons p rest ih =>
    intro usedV vi v s h
    obtain ⟨wi, w⟩ := p
    simp only [tier3Scan] at h
    by_cases hw : wi ∈ usedV
    · rw [if_pos hw] at h
      obtain ⟨hm, hn⟩ := ih usedV vi v s h
      exact ⟨List.mem_cons_of_mem _ hm, hn⟩
    · rw [if_neg hw] at h
      by_cases hd : w.date = "" ∨ eDate ≠ w.date
      · rw [if_pos hd] at h
        obtain ⟨hm, hn⟩ := ih usedV vi v s h
        exact ⟨List.mem_cons_of_mem _ hm, hn⟩
      · rw [if_neg hd] at h
        by_cases hs : 3/4 ≤ fuzzyRatio eCode (cleanInvoiceNumber w.inv)
        · rw [if_pos hs] at h
          obtain ⟨rfl, rfl, rfl⟩ : wi = vi ∧ w = v ∧
              fuzzyRatio eCode (cleanInvoiceNumber w.inv) = s := by
            have := h
            simp at this
            exact ⟨this.1, this.2.1, this.2.2⟩
          exact ⟨List.mem_cons_self _ _, hw⟩
        · rw [if_neg hs] at h
          obtain ⟨hm, hn⟩ := ih usedV vi v s h
          exact ⟨List.mem_cons_of_mem _ hm, hn⟩

theorem pick1_mem (ven : List (ℕ × Entry)) (e : Entry) (usedV : List ℕ)
    (vi : ℕ) (v : Entry) (s : ℚ) (h : pick1 e ven usedV = some (vi, v, s)) :
    vi ∈ ven.map Prod.fst ∧ vi ∉ usedV := by
  unfold pick1 at h
  cases hscan : tier1Scan e ven usedV with
  | none => rw [hscan] at h; simp at h
  | some p =>
    rw [hscan] at h
    obtain ⟨wi, w⟩ := p
    obtain ⟨rfl, rfl, rfl⟩ : wi = vi ∧ w = v ∧ (0 : ℚ) = s := by
      have := h
      simp at this
      exact ⟨this.1, this.2.1, this.2.2⟩
    exact tier1Scan_pick_mem e ven usedV _ _ hscan

theorem pick2_mem (ven : List (ℕ × Entry)) (e : Entry) (usedV : List ℕ)
    (vi : ℕ) (v : Entry) (s : ℚ) (h : pick2 e ven usedV = some (vi, v, s)) :
    vi ∈ ven.map Prod.fst ∧ vi ∉ usedV := by
  unfold pick2 at h
  rcases tier2Best_pick_mem |e.amt| (cleanInvoiceNumber e.inv) ven usedV none 0 vi v s h with
    hb | hok
  · simp at hb
  · exact hok

theorem pick3_mem (ven : List (ℕ × Entry)) (e : Entry) (usedV : List ℕ)
    (vi : ℕ) (v : Entry) (s : ℚ) (h : pick3 e ven usedV = some (vi, v, s)) :
    vi ∈ ven.map Prod.fst ∧ vi ∉ usedV := by
  unfold pick3 at h
  by_cases hd : e.date = ""
  · rw [if_pos hd] at h; simp at h
  · rw [if_neg hd] at h
    exact tier3Scan_pick_mem e.date (cleanInvoiceNumber e.inv) ven usedV vi v s h

theorem map_fst_filter_not_mem (l : List (ℕ × Entry)) (used : List ℕ) :
    (l.filter (fun p => decide (p.1 ∉ used))).map Prod.fst =
      (l.map Prod.fst).filter (fun x => decide (x ∉ used)) := by
  induction l with
  | nil => rfl
  | cons p rest ih =>
    by_cases hp : p.1 ∈ used
    · have hd : decide (p.1 ∉ used) = false := by simp [hp]
      rw [List.map_cons, List.filter_cons, List.filter_cons, hd]
      simp only [Bool.false_eq_true, if_false]
      exact ih
    · have hd : decide (p.1 ∉ used) = true := by simp [hp]
      rw [List.map_cons, List.filter_cons, List.filter_cons, hd]
      simp only [if_true]
      rw [List.map_cons, ih]

theorem perm_sel (S T : List ℕ) (hS : S.Nodup) (hT : T.Nodup)
    (hsub : ∀ x ∈ S, x ∈ T) :
    (S ++ T.filter (fun x => decide (x ∉ S))).Perm T := by
  have h2 : T.filter (fun x => !(decide (x ∈ S))) = T.filter (fun x => decide (x ∉ S)) := by
    apply List.filter_congr
    intro x _
    simp [decide_not]
  have h1 := List.filter_append_perm (fun x => decide (x ∈ S)) T
  have h3 : S.Perm (T.filter (fun x => decide (x ∈ S))) := by
    apply List.perm_of_nodup_nodup_toFinset_eq hS (hT.filter _)
    ext x
    simp only [List.mem_toFinset, List.mem_filter, decide_eq_true_eq]
    constructor
    · intro hx
      exact ⟨hsub x hx, hx⟩
    · intro hx
      exact hx.2
  refine (h3.append_right _).trans ?_
  rw [← h2]
  exact h1

theorem runTier_perm
    (pick : Entry → List (ℕ × Entry) → List ℕ → Option (ℕ × Entry × ℚ))
    (mk : ℕ → Entry → ℕ → Entry → ℚ → MatchRec)
    (HmkE : ∀ ei e vi v s, (mk ei e vi v s).eIdx = ei)
    (HmkV : ∀ ei e vi v s, (mk ei e vi v s).vIdx = vi)
    (erp ven : List (ℕ × Entry))
    (Hpick : ∀ e usedV vi v s, pick e ven usedV = some (vi, v, s) →
      vi ∈ ven.map Prod.fst ∧ vi ∉ usedV)
    (hE : (erp.map Prod.fst).Nodup) (hV : (ven.map Prod.fst).Nodup) :
    ((runTier pick mk erp ven).1.map MatchRec.eIdx ++
        (runTier pick mk erp ven).2.1.map Prod.fst).Perm (erp.map Prod.fst) ∧
    ((runTier pick mk erp ven).1.map MatchRec.vIdx ++
        (runTier pick mk erp ven).2.2.map Prod.fst).Perm (ven.map Prod.fst) := by
  have h1 : (runTier pick mk erp ven).1 = (greedyLoop pick mk erp ven [] []).1 := rfl
  have h21 : (runTier pick mk erp ven).2.1 =
      erp.filter (fun p => decide (p.1 ∉ (greedyLoop pick mk erp ven [] []).2.1)) := rfl
  have h22 : (runTier pick mk erp ven).2.2 =
      ven.filter (fun p => decide (p.1 ∉ (greedyLoop pick mk erp ven [] []).2.2)) := rfl
  have hUE : (greedyLoop pick mk erp ven [] []).2.1 =
      ((greedyLoop pick mk erp ven [] []).1.map MatchRec.eIdx).reverse := by
    have := greedyLoop_usedE pick mk HmkE erp ven [] []
    simpa using this
  have hUV : (greedyLoop pick mk erp ven [] []).2.2 =
      ((greedyLoop pick mk erp ven [] []).1.map MatchRec.vIdx).reverse := by
    have := greedyLoop_usedV pick mk HmkV erp ven [] []
    simpa using this
  constructor
  · rw [h1, h21, map_fst_filter_not_mem]
    have hfe : (erp.map Prod.fst).filter
        (fun x => decide (x ∉ (greedyLoop pick mk erp ven [] []).2.1)) =
        (erp.map Prod.fst).filter
        (fun x => decide (x ∉ (greedyLoop pick mk erp ven [] []).1.map MatchRec.eIdx)) := by
      apply List.filter_congr
      intro x _
      rw [hUE]
      simp [List.mem_reverse]
    rw [hfe]
    have hsub := greedyLoop_eIdx_sublist pick mk HmkE erp ven [] []
    exact perm_sel _ _ (hsub.nodup hE) hE (fun x hx => hsub.subset hx)
  · rw [h1, h22, map_fst_filter_not_mem]
    have hinv := greedyLoop_vIdx pick mk HmkV ven Hpick erp [] []
    have hfv : (ven.map Prod.fst).filter
        (fun x => decide (x ∉ (greedyLoop pick mk erp ven [] []).2.2)) =
        (ven.map Prod.fst).filter
        (fun x => decide (x ∉ (greedyLoop pick mk erp ven [] []).1.map MatchRec.vIdx)) := by
      apply List.filter_congr
      intro x _
      rw [hUV]
      simp [List.mem_reverse]
    rw [hfv]
    exact perm_sel _ _ hinv.2 hV (fun x hx => (hinv.1 x hx).1)
theorem reconRun_perm (erp ven : List Entry) :
    ((reconRun erp ven).1.map MatchRec.eIdx ++
        (reconRun erp ven).2.1.map Prod.fst).Perm (List.range erp.length) ∧
    ((reconRun erp ven).1.map MatchRec.vIdx ++
        (reconRun erp ven).2.2.map Prod.fst).Perm (List.range ven.length) := by
  have hE0 : (erp.enum.map Prod.fst).Nodup := by
    rw [List.enum_map_fst]
    exact List.nodup_range _
  have hV0 : (ven.enum.map Prod.fst).Nodup := by
    rw [List.enum_map_fst]
    exact List.nodup_range _
  have P1 : ((tier1 erp.enum ven.enum).1.map MatchRec.eIdx ++
      (tier1 erp.enum ven.enum).2.1.map Prod.fst).Perm (erp.enum.map Prod.fst) ∧
      ((tier1 erp.enum ven.enum).1.map MatchRec.vIdx ++
      (tier1 erp.enum ven.enum).2.2.map Prod.fst).Perm (ven.enum.map Prod.fst) :=
    runTier_perm pick1 mkT1Rec (fun _ _ _ _ _ => rfl) (fun _ _ _ _ _ => rfl)
      erp.enum ven.enum (fun e u vi v s h => pick1_mem ven.enum e u vi v s h) hE0 hV0
  have hsubE1 : ((tier1 erp.enum ven.enum).2.1).Sublist erp.enum := List.filter_sublist _
  have hsubV1 : ((tier1 erp.enum ven.enum).2.2).Sublist ven.enum := List.filter_sublist _
  have hE1 : (((tier1 erp.enum ven.enum).2.1).map Prod.fst).Nodup :=
    (hsubE1.map Prod.fst).nodup hE0
  have hV1 : (((tier1 erp.enum ven.enum).2.2).map Prod.fst).Nodup :=
    (hsubV1.map Prod.fst).nodup hV0
  have P2 : ((tier2 (tier1 erp.enum ven.enum).2.1 (tier1 erp.enum ven.enum).2.2).1.map
        MatchRec.eIdx ++
      (tier2 (tier1 erp.enum ven.enum).2.1 (tier1 erp.enum ven.enum).2.2).2.1.map
        Prod.fst).Perm ((tier1 erp.enum ven.enum).2.1.map Prod.fst) ∧
      ((tier2 (tier1 erp.enum ven.enum).2.1 (tier1 erp.enum ven.enum).2.2).1.map
        MatchRec.vIdx ++
      (tier2 (tier1 erp.enum ven.enum).2.1 (tier1 erp.enum ven.enum).2.2).2.2.map
        Prod.fst).Perm ((tier1 erp.enum ven.enum).2.2.map Prod.fst) :=
    runTier_perm pick2 mkT2Rec (fun _ _ _ _ _ => rfl) (fun _ _ _ _ _ => rfl)
      (tier1 erp.enum ven.enum).2.1 (tier1 erp.enum ven.enum).2.2
      (fun e u vi v s h => pick2_mem _ e u vi v s h) hE1 hV1
  have hsubE2 : ((tier2 (tier1 erp.enum ven.enum).2.1 (tier1 erp.enum ven.enum).2.2).2.1).Sublist
      (tier1 erp.enum ven.enum).2.1 := List.filter_sublist _
  have hsubV2 : ((tier2 (tier1 erp.enum ven.enum).2.1 (tier1 erp.enum ven.enum).2.2).2.2).Sublist
      (tier1 erp.enum ven.enum).2.2 := List.filter_sublist _
  have hE2 : (((tier2 (tier1 erp.enum ven.enum).2.1 (tier1 erp.enum ven.enum).2.2).2.1).map
      Prod.fst).Nodup := (hsubE2.map Prod.fst).nodup hE1
  have hV2 : (((tier2 (tier1 erp.enum ven.enum).2.1 (tier1 erp.enum ven.enum).2.2).2.2).map
      Prod.fst).Nodup := (hsubV2.map Prod.fst).nodup hV1
  have P3 : ((tier3 (tier2 (tier1 erp.enum ven.enum).2.1 (tier1 erp.enum ven.enum).2.2).2.1
        (tier2 (tier1 erp.enum ven.enum).2.1 (tier1 erp.enum ven.enum).2.2).2.2).1.map
        MatchRec.eIdx ++
      (tier3 (tier2 (tier1 erp.enum ven.enum).2.1 (tier1 erp.enum ven.enum).2.2).2.1
        (tier2 (tier1 erp.enum ven.enum).2.1 (tier1 erp.enum ven.enum).2.2).2.2).2.1.map
        Prod.fst).Perm
      ((tier2 (tier1 erp.enum ven.enum).2.1 (tier1 erp.enum ven.enum).2.2).2.1.map Prod.fst) ∧
      ((tier3 (tier2 (tier1 erp.enum ven.enum).2.1 (tier1 erp.enum ven.enum).2.2).2.1
        (tier2 (tier1 erp.enum ven.enum).2.1 (tier1 erp.enum ven.enum).2.2).2.2).1.map
        MatchRec.vIdx ++
      (tier3 (tier2 (tier1 erp.enum ven.enum).2.1 (tier1 erp.enum ven.enum).2.2).2.1
        (tier2 (tier1 erp.enum ven.enum).2.1 (tier1 erp.enum ven.enum).2.2).2.2).2.2.map
        Prod.fst).Perm
      ((tier2 (tier1 erp.enum ven.enum).2.1 (tier1 erp.enum ven.enum).2.2).2.2.map Prod.fst) :=
    runTier_perm pick3 mkT3Rec (fun _ _ _ _ _ => rfl) (fun _ _ _ _ _ => rfl)
      (tier2 (tier1 erp.enum ven.enum).2.1 (tier1 erp.enum ven.enum).2.2).2.1
      (tier2 (tier1 erp.enum ven.enum).2.1 (tier1 erp.enum ven.enum).2.2).2.2
      (fun e u vi v s h => pick3_mem _ e u vi v s h) hE2 hV2
  constructor
  · have hgoal : (reconRun erp ven).1.map MatchRec.eIdx ++
        (reconRun erp ven).2.1.map Prod.fst =
        (tier1 erp.enum ven.enum).1.map MatchRec.eIdx ++
        ((tier2 (tier1 erp.enum ven.enum).2.1 (tier1 erp.enum ven.enum).2.2).1.map
          MatchRec.eIdx ++
        ((tier3 (tier2 (tier1 erp.enum ven.enum).2.1 (tier1 erp.enum ven.enum).2.2).2.1
          (tier2 (tier1 erp.enum ven.enum).2.1 (tier1 erp.enum ven.enum).2.2).2.2).1.map
          MatchRec.eIdx ++
        (tier3 (tier2 (tier1 erp.enum ven.enum).2.1 (tier1 erp.enum ven.enum).2.2).2.1
          (tier2 (tier1 erp.enum ven.enum).2.1 (tier1 erp.enum ven.enum).2.2).2.2).2.1.map
          Prod.fst)) := by
      have h0 : (reconRun erp ven).1 = (tier1 erp.enum ven.enum).1 ++ (tier2 (tier1 erp.enum ven.enum).2.1 (tier1 erp.enum ven.enum).2.2).1 ++ (tier3 (tier2 (tier1 erp.enum ven.enum).2.1 (tier1 erp.enum ven.enum).2.2).2.1 (tier2 (tier1 erp.enum ven.enum).2.1 (tier1 erp.enum ven.enum).2.2).2.2).1 := rfl
      have h1 : (reconRun erp ven).2.1 = (tier3 (tier2 (tier1 erp.enum ven.enum).2.1 (tier1 erp.enum ven.enum).2.2).2.1 (tier2 (tier1 erp.enum ven.enum).2.1 (tier1 erp.enum ven.enum).2.2).2.2).2.1 := rfl
      rw [h0, h1]
      simp [List.map_append, List.append_assoc]
    rw [hgoal]
    have q2 := ((P3.1).append_left
      ((tier2 (tier1 erp.enum ven.enum).2.1 (tier1 erp.enum ven.enum).2.2).1.map
        MatchRec.eIdx)).trans P2.1
    have q1 := (q2.append_left ((tier1 erp.enum ven.enum).1.map MatchRec.eIdx)).trans P1.1
    rw [List.enum_map_fst] at q1
    exact q1
  · have hgoal : (reconRun erp ven).1.map MatchRec.vIdx ++
        (reconRun erp ven).2.2.map Prod.fst =
        (tier1 erp.enum ven.enum).1.map MatchRec.vIdx ++
        ((tier2 (tier1 erp.enum ven.enum).2.1 (tier1 erp.enum ven.enum).2.2).1.map
          MatchRec.vIdx ++
        ((tier3 (tier2 (tier1 erp.enum ven.enum).2.1 (tier1 erp.enum ven.enum).2.2).2.1
          (tier2 (tier1 erp.enum ven.enum).2.1 (tier1 erp.enum ven.enum).2.2).2.2).1.map
          MatchRec.vIdx ++
        (tier3 (tier2 (tier1 erp.enum ven.enum).2.1 (tier1 erp.enum ven.enum).2.2).2.1
          (tier2 (tier1 erp.enum ven.enum).2.1 (tier1 erp.enum ven.enum).2.2).2.2).2.2.map
          Prod.fst)) := by
      have h0 : (reconRun erp ven).1 = (tier1 erp.enum ven.enum).1 ++ (tier2 (tier1 erp.enum ven.enum).2.1 (tier1 erp.enum ven.enum).2.2).1 ++ (tier3 (tier2 (tier1 erp.enum ven.enum).2.1 (tier1 erp.enum ven.enum).2.2).2.1 (tier2 (tier1 erp.enum ven.enum).2.1 (tier1 erp.enum ven.enum).2.2).2.2).1 := rfl
      have h2 : (reconRun erp ven).2.2 = (tier3 (tier2 (tier1 erp.enum ven.enum).2.1 (tier1 erp.enum ven.enum).2.2).2.1 (tier2 (tier1 erp.enum ven.enum).2.1 (tier1 erp.enum ven.enum).2.2).2.2).2.2 := rfl
      rw [h0, h2]
      simp [List.map_append, List.append_assoc]
    rw [hgoal]
    have q2 := ((P3.2).append_left
      ((tier2 (tier1 erp.enum ven.enum).2.1 (tier1 erp.enum ven.enum).2.2).1.map
        MatchRec.vIdx)).trans P2.2
    have q1 := (q2.append_left ((tier1 erp.enum ven.enum).1.map MatchRec.vIdx)).trans P1.2
    rw [List.enum_map_fst] at q1
    exact q1

/-- **C1.** Across a full Tier1→Tier3 run (`reconRun`), no consolidated entry
index of either side appears in more than one match record, and every index
appears either in exactly one match record or in the terminal missing set for
its side: on each side, the list of matched indices followed by the terminal
missing indices has no duplicates and contains exactly the indices below that
side's length — no entry is consumed twice and none is silently dropped. -/
theorem c1_consume_once_partition (erp ven : List Entry) :
    (((reconRun erp ven).1.map MatchRec.eIdx ++
        (reconRun erp ven).2.1.map Prod.fst).Nodup ∧
      ∀ i, i ∈ (reconRun erp ven).1.map MatchRec.eIdx ++
          (reconRun erp ven).2.1.map Prod.fst ↔ i < erp.length) ∧
    (((reconRun erp ven).1.map MatchRec.vIdx ++
        (reconRun erp ven).2.2.map Prod.fst).Nodup ∧
      ∀ i, i ∈ (reconRun erp ven).1.map MatchRec.vIdx ++
          (reconRun erp ven).2.2.map Prod.fst ↔ i < ven.length) := by
  obtain ⟨PE, PV⟩ := reconRun_perm erp ven
  refine ⟨⟨?_, ?_⟩, ?_, ?_⟩
  · exact PE.nodup_iff.mpr (List.nodup_range _)
  · intro i
    rw [PE.mem_iff, List.mem_range]
  · exact PV.nodup_iff.mpr (List.nodup_range _)
  · intro i
    rw [PV.mem_iff, List.mem_range]

/-! ### C7 (universal separator rules) -/

theorem takeWhile_all {p : Char → Bool} :
    ∀ {l : List Char}, (∀ c ∈ l, p c = true) → l.takeWhile p = l
  | [], _ => rfl
  | c :: r, h => by
    rw [List.takeWhile_cons, h c (List.mem_cons_self c r)]
    simp [takeWhile_all (fun c hc => h c (List.mem_cons_of_mem _ hc))]

theorem dropWhile_all {p : Char → Bool} :
    ∀ {l : List Char}, (∀ c ∈ l, p c = true) → l.dropWhile p = []
  | [], _ => rfl
  | c :: r, h => by
    rw [List.dropWhile_cons, h c (List.mem_cons_self c r)]
    simp [dropWhile_all (fun c hc => h c (List.mem_cons_of_mem _ hc))]

theorem takeWhile_digits_append (i f : List Char) (hi : ∀ c ∈ i, c.isDigit = true) :
    (i ++ '.' :: f).takeWhile Char.isDigit = i ∧
    (i ++ '.' :: f).dropWhile Char.isDigit = '.' :: f := by
  induction i with
  | nil =>
    constructor <;> simp [List.takeWhile_cons, List.dropWhile_cons]
  | cons d i' ih =>
    have hd := hi d (List.mem_cons_self _ _)
    have ih' := ih (fun c hc => hi c (List.mem_cons_of_mem _ hc))
    constructor
    · rw [List.cons_append, List.takeWhile_cons, hd]
      simp [ih'.1]
    · rw [List.cons_append, List.dropWhile_cons, hd]
      simp [ih'.2]

theorem parseFloat_digits_point (i f : List Char)
    (hi : ∀ c ∈ i, c.isDigit = true) (hf : ∀ c ∈ f, c.isDigit = true)
    (hne : ¬(i = [] ∧ f = [])) :
    parseFloat (i ++ '.' :: f) =
      some (digitsVal i + digitsVal f / (10 : ℚ) ^ f.length) := by
  obtain ⟨htake, hdrop⟩ := takeWhile_digits_append i f hi
  have hft := takeWhile_all hf
  have hfd := dropWhile_all hf
  unfold parseFloat
  split
  · next neg r heq =>
    split at heq
    · next s heq2 =>
      exfalso
      cases i with
      | nil =>
        exact absurd (List.head_eq_of_cons_eq heq2) (by decide)
      | cons d i' =>
        have hd := hi d (List.mem_cons_self _ _)
        have : d = '-' := List.head_eq_of_cons_eq heq2
        rw [this] at hd
        exact absurd hd (by decide)
    · next hne2 =>
      cases heq
      simp only [htake, hdrop]
      rw [hft, hfd]
      rw [if_pos ⟨rfl, hne⟩]
      rfl

theorem digit_not_ws {c : Char} (h : c.isDigit = true) : c.isWhitespace = false := by
  by_contra hw
  rw [Bool.not_eq_false] at hw
  have h4 : ((c = ' ' ∨ c = '\t') ∨ c = '\x0d') ∨ c = '\n' := by
    simpa [Char.isWhitespace] using hw
  rcases h4 with ((h1 | h1) | h1) | h1 <;> subst h1 <;> exact absurd h (by decide)

theorem digit_ne {c d : Char} (h : c.isDigit = true) (hd : d.isDigit = false) : c ≠ d := by
  intro he
  rw [he, hd] at h
  cases h

theorem count_zero_of_all_digit {d : Char} (hd : d.isDigit = false) {l : List Char}
    (hl : ∀ c ∈ l, c.isDigit = true) : l.count d = 0 :=
  List.count_eq_zero.mpr (fun hm => absurd (hl d hm) (by rw [hd]; exact Bool.false_ne_true))

theorem findIdx_append_none (p : Char → Bool) :
    ∀ (l rest : List Char), (∀ x ∈ l, p x = false) →
      List.findIdx p (l ++ rest) = l.length + List.findIdx p rest
  | [], _, _ => by simp
  | x :: t, rest, h => by
    rw [List.cons_append, List.findIdx_cons, h x (List.mem_cons_self _ _),
      findIdx_append_none p t rest (fun c hc => h c (List.mem_cons_of_mem _ hc))]
    simp only [Bool.cond_false, List.length_cons]
    omega

theorem removeFirstN_count (ch : Char) :
    ∀ (x rest : List Char),
      removeFirstN ch (x.count ch) (x ++ rest) = x.filter (· ≠ ch) ++ rest := by
  intro x
  induction x with
  | nil => intro rest; simp [removeFirstN]
  | cons d x' ih =>
    intro rest
    by_cases hd : d = ch
    · subst hd
      rw [List.count_cons_self, List.cons_append]
      show removeFirstN d (x'.count d + 1) (d :: (x' ++ rest)) = _
      rw [show removeFirstN d (x'.count d + 1) (d :: (x' ++ rest)) =
        removeFirstN d (x'.count d) (x' ++ rest) by simp [removeFirstN]]
      rw [ih rest]
      simp [List.filter_cons]
    · rw [List.count_cons_of_ne (Ne.symm hd), List.cons_append]
      cases hc : x'.count ch with
      | zero =>
        have hnm : ch ∉ x' := List.count_eq_zero.mp hc
        have hfil : x'.filter (· ≠ ch) = x' :=
          List.filter_eq_self.mpr (fun a ha => by
            simp only [decide_eq_true_eq]
            intro he
            exact hnm (he ▸ ha))
        have h0 : removeFirstN ch 0 (d :: (x' ++ rest)) = d :: (x' ++ rest) := rfl
        rw [h0, List.filter_cons, if_pos (show decide (d ≠ ch) = true by simpa using hd),
          hfil, List.cons_append]
      | succ k =>
        have step : removeFirstN ch (k + 1) (d :: (x' ++ rest)) =
            d :: removeFirstN ch (k + 1) (x' ++ rest) := by
          simp [removeFirstN, hd]
        rw [step, ← hc, ih rest]
        simp [List.filter_cons, hd]

theorem numKeep_of (c : Char) (h : c.isDigit = true ∨ c = ',' ∨ c = '.' ∨ c = '-') :
    numKeep c = true := by
  rcases h with hd | rfl | rfl | rfl
  · simp [numKeep, hd]
  all_goals decide

theorem ws_false_of (c : Char) (h : c.isDigit = true ∨ c = ',' ∨ c = '.' ∨ c = '-') :
    c.isWhitespace = false := by
  rcases h with hd | rfl | rfl | rfl
  · exact digit_not_ws hd
  all_goals decide

theorem normalizeNumber_eval (l : List Char) (hl : l ≠ [])
    (halpha : ∀ c ∈ l, c.isDigit = true ∨ c = ',' ∨ c = '.' ∨ c = '-') :
    normalizeNumber ⟨l⟩ =
      match parseFloat (sepFix l) with
      | some q => q
      | none => 0 := by
  unfold normalizeNumber
  have hdata : (⟨l⟩ : String).data = l := rfl
  rw [hdata, pyStrip_of_no_ws (fun c hc => ws_false_of c (halpha c hc)), if_neg hl,
    List.filter_eq_self.mpr (fun c hc => numKeep_of c (halpha c hc))]

theorem digits_map_comma (l : List Char) (hl : ∀ x ∈ l, x.isDigit = true) :
    l.map (fun ch => if ch = ',' then '.' else ch) = l :=
  map_id_of_mem (fun x hx => if_neg (digit_ne (hl x hx) (by decide)))

theorem digits_filter_ne (d : Char) (hd : d.isDigit = false) (l : List Char)
    (hl : ∀ x ∈ l, x.isDigit = true) : l.filter (· ≠ d) = l :=
  List.filter_eq_self.mpr (fun x hx => decide_eq_true (digit_ne (hl x hx) hd))

theorem c7_clauseA (a b c : List Char) (ha : ∀ ch ∈ a, ch.isDigit = true)
    (hb : ∀ ch ∈ b, ch.isDigit = true) (hc : ∀ ch ∈ c, ch.isDigit = true) :
    normalizeNumber ⟨a ++ ('.' :: (b ++ (',' :: c)))⟩ =
      digitsVal (a ++ b) + digitsVal c / (10 : ℚ) ^ c.length := by
  have halpha : ∀ ch ∈ a ++ ('.' :: (b ++ (',' :: c))),
      ch.isDigit = true ∨ ch = ',' ∨ ch = '.' ∨ ch = '-' := by
    intro ch hch
    rcases List.mem_append.mp hch with h1 | h1
    · exact Or.inl (ha ch h1)
    · rcases List.mem_cons.mp h1 with rfl | h2
      · exact Or.inr (Or.inr (Or.inl rfl))
      · rcases List.mem_append.mp h2 with h3 | h3
        · exact Or.inl (hb ch h3)
        · rcases List.mem_cons.mp h3 with rfl | h4
          · exact Or.inr (Or.inl rfl)
          · exact Or.inl (hc ch h4)
  have hne : a ++ ('.' :: (b ++ (',' :: c))) ≠ [] := by
    intro h
    have := congrArg List.length h
    simp at this
  have hza : a.count ',' = 0 := count_zero_of_all_digit (by decide) ha
  have hzb : b.count ',' = 0 := count_zero_of_all_digit (by decide) hb
  have hzc : c.count ',' = 0 := count_zero_of_all_digit (by decide) hc
  have hpa : a.count '.' = 0 := count_zero_of_all_digit (by decide) ha
  have hpb : b.count '.' = 0 := count_zero_of_all_digit (by decide) hb
  have hpc : c.count '.' = 0 := count_zero_of_all_digit (by decide) hc
  have hca : (a ++ ('.' :: (b ++ (',' :: c)))).count ',' = 1 := by
    simp [List.count_append, List.count_cons, hza, hzb, hzc]
  have hcp : (a ++ ('.' :: (b ++ (',' :: c)))).count '.' = 1 := by
    simp [List.count_append, List.count_cons, hpa, hpb, hpc]
  have hfa : ∀ x ∈ a, (fun x => decide (x = '.')) x = false :=
    fun x hx => decide_eq_false (digit_ne (ha x hx) (by decide))
  have hfa2 : ∀ x ∈ a, (fun x => decide (x = ',')) x = false :=
    fun x hx => decide_eq_false (digit_ne (ha x hx) (by decide))
  have hfb2 : ∀ x ∈ b, (fun x => decide (x = ',')) x = false :=
    fun x hx => decide_eq_false (digit_ne (hb x hx) (by decide))
  have hidx : (a ++ ('.' :: (b ++ (',' :: c)))).findIdx (· = '.') <
      (a ++ ('.' :: (b ++ (',' :: c)))).findIdx (· = ',') := by
    have h1 : (a ++ ('.' :: (b ++ (',' :: c)))).findIdx (· = '.') = a.length := by
      rw [findIdx_append_none (fun x => decide (x = '.')) a ('.' :: (b ++ (',' :: c))) hfa,
        List.findIdx_cons]
      simp
    have h3 : List.findIdx (fun x => decide (x = ',')) (b ++ (',' :: c)) = b.length := by
      rw [findIdx_append_none (fun x => decide (x = ',')) b (',' :: c) hfb2,
        List.findIdx_cons]
      simp
    have h2 : (a ++ ('.' :: (b ++ (',' :: c)))).findIdx (· = ',') =
        a.length + (b.length + 1) := by
      rw [findIdx_append_none (fun x => decide (x = ',')) a ('.' :: (b ++ (',' :: c))) hfa2,
        List.findIdx_cons]
      simp only [show decide ('.' = ',') = false from by decide, Bool.cond_false, h3]
    rw [h1, h2]
    omega
  have hsep : sepFix (a ++ ('.' :: (b ++ (',' :: c)))) = (a ++ b) ++ '.' :: c := by
    unfold sepFix
    rw [if_pos ⟨hca, hcp⟩, if_pos hidx]
    have hfil : (a ++ ('.' :: (b ++ (',' :: c)))).filter (· ≠ '.') =
        a ++ (b ++ (',' :: c)) := by
      rw [List.filter_append, List.filter_cons, if_neg (by decide),
        digits_filter_ne '.' (by decide) a ha, List.filter_append,
        digits_filter_ne '.' (by decide) b hb, List.filter_cons,
        if_pos (by decide), digits_filter_ne '.' (by decide) c hc]
    rw [hfil, List.map_append, List.map_append, List.map_cons, if_pos rfl,
      digits_map_comma a ha, digits_map_comma b hb, digits_map_comma c hc,
      ← List.append_assoc]
  rw [normalizeNumber_eval _ hne halpha, hsep]
  by_cases hdeg : a ++ b = [] ∧ c = []
  · obtain ⟨h1, h2⟩ := hdeg
    rw [h1, h2]
    simp [parseFloat, digitsVal]
  · have hI : ∀ ch ∈ a ++ b, ch.isDigit = true := fun ch hch =>
      (List.mem_append.mp hch).elim (ha ch) (hb ch)
    rw [parseFloat_digits_point (a ++ b) c hI hc hdeg]

theorem c7_clauseB (a b c : List Char) (ha : ∀ ch ∈ a, ch.isDigit = true)
    (hb : ∀ ch ∈ b, ch.isDigit = true) (hc : ∀ ch ∈ c, ch.isDigit = true) :
    normalizeNumber ⟨a ++ (',' :: (b ++ ('.' :: c)))⟩ =
      digitsVal (a ++ b) + digitsVal c / (10 : ℚ) ^ c.length := by
  have halpha : ∀ ch ∈ a ++ (',' :: (b ++ ('.' :: c))),
      ch.isDigit = true ∨ ch = ',' ∨ ch = '.' ∨ ch = '-' := by
    intro ch hch
    rcases List.mem_append.mp hch with h1 | h1
    · exact Or.inl (ha ch h1)
    · rcases List.mem_cons.mp h1 with rfl | h2
      · exact Or.inr (Or.inl rfl)
      · rcases List.mem_append.mp h2 with h3 | h3
        · exact Or.inl (hb ch h3)
        · rcases List.mem_cons.mp h3 with rfl | h4
          · exact Or.inr (Or.inr (Or.inl rfl))
          · exact Or.inl (hc ch h4)
  have hne : a ++ (',' :: (b ++ ('.' :: c))) ≠ [] := by
    intro h
    have := congrArg List.length h
    simp at this
  have hza : a.count ',' = 0 := count_zero_of_all_digit (by decide) ha
  have hzb : b.count ',' = 0 := count_zero_of_all_digit (by decide) hb
  have hzc : c.count ',' = 0 := count_zero_of_all_digit (by decide) hc
  have hpa : a.count '.' = 0 := count_zero_of_all_digit (by decide) ha
  have hpb : b.count '.' = 0 := count_zero_of_all_digit (by decide) hb
  have hpc : c.count '.' = 0 := count_zero_of_all_digit (by decide) hc
  have hca : (a ++ (',' :: (b ++ ('.' :: c)))).count ',' = 1 := by
    simp [List.count_append, List.count_cons, hza, hzb, hzc]
  have hcp : (a ++ (',' :: (b ++ ('.' :: c)))).count '.' = 1 := by
    simp [List.count_append, List.count_cons, hpa, hpb, hpc]
  have hfa : ∀ x ∈ a, (fun x => decide (x = ',')) x = false :=
    fun x hx => decide_eq_false (digit_ne (ha x hx) (by decide))
  have hfa2 : ∀ x ∈ a, (fun x => decide (x = '.')) x = false :=
    fun x hx => decide_eq_false (digit_ne (ha x hx) (by decide))
  have hfb2 : ∀ x ∈ b, (fun x => decide (x = '.')) x = false :=
    fun x hx => decide_eq_false (digit_ne (hb x hx) (by decide))
  have h1 : (a ++ (',' :: (b ++ ('.' :: c)))).findIdx (· = ',') = a.length := by
    rw [findIdx_append_none (fun x => decide (x = ',')) a (',' :: (b ++ ('.' :: c))) hfa,
      List.findIdx_cons]
    simp
  have h3 : List.findIdx (fun x => decide (x = '.')) (b ++ ('.' :: c)) = b.length := by
    rw [findIdx_append_none (fun x => decide (x = '.')) b ('.' :: c) hfb2,
      List.findIdx_cons]
    simp
  have h2 : (a ++ (',' :: (b ++ ('.' :: c)))).findIdx (· = '.') =
      a.length + (b.length + 1) := by
    rw [findIdx_append_none (fun x => decide (x = '.')) a (',' :: (b ++ ('.' :: c))) hfa2,
      List.findIdx_cons]
    simp only [show decide (',' = '.') = false from by decide, Bool.cond_false, h3]
  have hidx : ¬((a ++ (',' :: (b ++ ('.' :: c)))).findIdx (· = '.') <
      (a ++ (',' :: (b ++ ('.' :: c)))).findIdx (· = ',')) := by
    rw [h1, h2]
    omega
  have hsep : sepFix (a ++ (',' :: (b ++ ('.' :: c)))) = (a ++ b) ++ '.' :: c := by
    unfold sepFix
    rw [if_pos ⟨hca, hcp⟩, if_neg hidx]
    rw [List.filter_append, List.filter_cons, if_neg (by decide),
      digits_filter_ne ',' (by decide) a ha, List.filter_append,
      digits_filter_ne ',' (by decide) b hb, List.filter_cons,
      if_pos (by decide), digits_filter_ne ',' (by decide) c hc,
      ← List.append_assoc]
  rw [normalizeNumber_eval _ hne halpha, hsep]
  by_cases hdeg : a ++ b = [] ∧ c = []
  · obtain ⟨hd1, hd2⟩ := hdeg
    rw [hd1, hd2]
    simp [parseFloat, digitsVal]
  · have hI : ∀ ch ∈ a ++ b, ch.isDigit = true := fun ch hch =>
      (List.mem_append.mp hch).elim (ha ch) (hb ch)
    rw [parseFloat_digits_point (a ++ b) c hI hc hdeg]

theorem c7_clauseC (a b : List Char) (ha : ∀ ch ∈ a, ch.isDigit = true)
    (hb : ∀ ch ∈ b, ch.isDigit = true) :
    normalizeNumber ⟨a ++ (',' :: b)⟩ =
      digitsVal a + digitsVal b / (10 : ℚ) ^ b.length := by
  have halpha : ∀ ch ∈ a ++ (',' :: b),
      ch.isDigit = true ∨ ch = ',' ∨ ch = '.' ∨ ch = '-' := by
    intro ch hch
    rcases List.mem_append.mp hch with h1 | h1
    · exact Or.inl (ha ch h1)
    · rcases List.mem_cons.mp h1 with rfl | h2
      · exact Or.inr (Or.inl rfl)
      · exact Or.inl (hb ch h2)
  have hne : a ++ (',' :: b) ≠ [] := by
    intro h
    have := congrArg List.length h
    simp at this
  have hza : a.count ',' = 0 := count_zero_of_all_digit (by decide) ha
  have hzb : b.count ',' = 0 := count_zero_of_all_digit (by decide) hb
  have hpa : a.count '.' = 0 := count_zero_of_all_digit (by decide) ha
  have hpb : b.count '.' = 0 := count_zero_of_all_digit (by decide) hb
  have hca : (a ++ (',' :: b)).count ',' = 1 := by
    simp [List.count_append, List.count_cons, hza, hzb]
  have hcp : (a ++ (',' :: b)).count '.' = 0 := by
    simp [List.count_append, List.count_cons, hpa, hpb]
  have hsep : sepFix (a ++ (',' :: b)) = a ++ '.' :: b := by
    unfold sepFix
    rw [if_neg (fun h => absurd (hcp ▸ h.2) (by decide)), if_pos hca,
      List.map_append, List.map_cons, if_pos rfl,
      digits_map_comma a ha, digits_map_comma b hb]
  rw [normalizeNumber_eval _ hne halpha, hsep]
  by_cases hdeg : a = [] ∧ b = []
  · obtain ⟨hd1, hd2⟩ := hdeg
    rw [hd1, hd2]
    simp [parseFloat, digitsVal]
  · rw [parseFloat_digits_point a b ha hb hdeg]

theorem c7_clauseD (x c : List Char) (hx : ∀ ch ∈ x, ch.isDigit = true ∨ ch = '.')
    (hcnt : 1 ≤ x.count '.') (hc : ∀ ch ∈ c, ch.isDigit = true) :
    normalizeNumber ⟨x ++ ('.' :: c)⟩ =
      digitsVal (x.filter (· ≠ '.')) + digitsVal c / (10 : ℚ) ^ c.length := by
  have halpha : ∀ ch ∈ x ++ ('.' :: c),
      ch.isDigit = true ∨ ch = ',' ∨ ch = '.' ∨ ch = '-' := by
    intro ch hch
    rcases List.mem_append.mp hch with h1 | h1
    · rcases hx ch h1 with hd | rfl
      · exact Or.inl hd
      · exact Or.inr (Or.inr (Or.inl rfl))
    · rcases List.mem_cons.mp h1 with rfl | h2
      · exact Or.inr (Or.inr (Or.inl rfl))
      · exact Or.inl (hc ch h2)
  have hne : x ++ ('.' :: c) ≠ [] := by
    intro h
    have := congrArg List.length h
    simp at this
  have hzx : x.count ',' = 0 := List.count_eq_zero.mpr (fun hm => by
    rcases hx ',' hm with hd | he
    · exact absurd hd (by decide)
    · exact absurd he (by decide))
  have hzc : c.count ',' = 0 := count_zero_of_all_digit (by decide) hc
  have hpc : c.count '.' = 0 := count_zero_of_all_digit (by decide) hc
  have hca : (x ++ ('.' :: c)).count ',' = 0 := by
    simp [List.count_append, List.count_cons, hzx, hzc]
  have hcp : (x ++ ('.' :: c)).count '.' = x.count '.' + 1 := by
    simp [List.count_append, List.count_cons, hpc]
  have hsep : sepFix (x ++ ('.' :: c)) = x.filter (· ≠ '.') ++ '.' :: c := by
    unfold sepFix
    rw [if_neg (fun h => absurd (hca ▸ h.1) (by decide)),
      if_neg (fun h => absurd (hca ▸ h) (by decide)),
      if_pos (show 1 < (x ++ ('.' :: c)).count '.' by rw [hcp]; omega),
      hcp, Nat.add_sub_cancel, removeFirstN_count]
  rw [normalizeNumber_eval _ hne halpha, hsep]
  by_cases hdeg : x.filter (· ≠ '.') = [] ∧ c = []
  · obtain ⟨hd1, hd2⟩ := hdeg
    rw [hd1, hd2]
    simp [parseFloat, digitsVal]
  · have hI : ∀ ch ∈ x.filter (· ≠ '.'), ch.isDigit = true := by
      intro ch hch
      obtain ⟨hm, hp⟩ := List.mem_filter.mp hch
      rcases hx ch hm with hd | rfl
      · exact hd
      · exact absurd hp (by decide)
    rw [parseFloat_digits_point (x.filter (· ≠ '.')) c hI hc hdeg]

/-- **C7** (amended): universal separator disambiguation of `normalize_number`.
(i) Any input whose residue fails to parse yields `0` without raising.
(ii) If a period and a comma each appear exactly once, with the comma later
(shape `a.b,c` over digit segments), the comma is the decimal point: the
period is dropped as a thousands separator and the value is `ab.c`.
(iii) Symmetrically for shape `a,b.c` (period later): the comma is dropped and
the period is the decimal point.
(iv) If only a comma appears, exactly once (shape `a,b`), the comma is the
decimal point.
(v) If more than one period appears and no comma (shape `x.c` with `x`
containing at least one further period), all periods except the last are
thousands separators and the last is the decimal point: the value is
`(x without periods).c`. -/
theorem c7_normalize_number_separators :
    (∀ v : String, parseFloat (sepFix ((pyStrip v.data).filter numKeep)) = none →
      normalizeNumber v = 0)
    ∧ (∀ a b c : List Char, (∀ ch ∈ a, ch.isDigit = true) →
        (∀ ch ∈ b, ch.isDigit = true) → (∀ ch ∈ c, ch.isDigit = true) →
        normalizeNumber ⟨a ++ ('.' :: (b ++ (',' :: c)))⟩ =
          digitsVal (a ++ b) + digitsVal c / (10 : ℚ) ^ c.length)
    ∧ (∀ a b c : List Char, (∀ ch ∈ a, ch.isDigit = true) →
        (∀ ch ∈ b, ch.isDigit = true) → (∀ ch ∈ c, ch.isDigit = true) →
        normalizeNumber ⟨a ++ (',' :: (b ++ ('.' :: c)))⟩ =
          digitsVal (a ++ b) + digitsVal c / (10 : ℚ) ^ c.length)
    ∧ (∀ a b : List Char, (∀ ch ∈ a, ch.isDigit = true) →
        (∀ ch ∈ b, ch.isDigit = true) →
        normalizeNumber ⟨a ++ (',' :: b)⟩ =
          digitsVal a + digitsVal b / (10 : ℚ) ^ b.length)
    ∧ (∀ x c : List Char, (∀ ch ∈ x, ch.isDigit = true ∨ ch = '.') →
        1 ≤ x.count '.' → (∀ ch ∈ c, ch.isDigit = true) →
        normalizeNumber ⟨x ++ ('.' :: c)⟩ =
          digitsVal (x.filter (· ≠ '.')) + digitsVal c / (10 : ℚ) ^ c.length) := by
  refine ⟨fun v h => ?_, c7_clauseA, c7_clauseB, c7_clauseC, c7_clauseD⟩
  unfold normalizeNumber
  split
  · rfl
  · rw [h]

/-- C7 witness: the comma-later rule (ii) applied at the concrete input
`"1.234,56"`, together with the parse-failure rule (i) at `"--"`. -/
theorem c7_witness :
    ((∀ ch ∈ ['1'], ch.isDigit = true) ∧
      normalizeNumber ⟨['1'] ++ ('.' :: (['2', '3', '4'] ++ (',' :: ['5', '6'])))⟩ =
        digitsVal (['1'] ++ ['2', '3', '4']) +
          digitsVal ['5', '6'] / (10 : ℚ) ^ (['5', '6'] : List Char).length) ∧
    (parseFloat (sepFix ((pyStrip ("--" : String).data).filter numKeep)) = none ∧
      normalizeNumber "--" = 0) :=
  ⟨⟨by decide, c7_normalize_number_separators.2.1 ['1'] ['2', '3', '4'] ['5', '6']
      (by decide) (by decide) (by decide)⟩,
    ⟨by decide, c7_normalize_number_separators.1 "--" (by decide)⟩⟩
